import Mathlib

/-!
Shallow embedding of `src/huff/huff.py` (a Huffman coding codec) and proofs
about it.  Symbols are single-byte character codes: the spec fixes the
alphabet to values representable in one byte and the source sizes every
table by `ASCII_MAX = 256`, indexing with `ord(char)`.  Python's `ord` is
`Fin.val` here and a one-character string is its code.  Mutation of the
`HuffmanNode` dataclass instances (only `freq += 1` on nodes that are not
yet shared) is modelled by functional update; functions that can raise are
embedded in `Except PyErr`.
-/

set_option maxRecDepth 8192

namespace Huff

/-- Symbol: a single-byte character code `0..255` (spec §3; `ASCII_MAX` in
`huff.py`). -/
abbrev Symbol := Fin 256

/-- `ASCII_MAX = 256` from `huff.py`. -/
def ASCII_MAX : Nat := 256

/-- Errors.  The first four are the Python exceptions the embedded code can
actually raise (`IndexError` from `node_queue[0]` / list indexing,
`TypeError` from `out += None`, `AttributeError` from attribute access on
`None`, `AssertionError` from the `assert` in `_popmin`).  The last three
are modelled from the spec: the spec's §7 error taxonomy names
`EmptyAlphabet`, `UnknownSymbol` and `TruncatedStream`, but `huff.py`
defines no error classes at all, so these constructors are never produced
by the embedded code; they exist so that claims naming them can be
stated. -/
inductive PyErr where
  | indexError
  | typeError
  | attributeError
  | assertionError
  | emptyAlphabet
  | unknownSymbol
  | truncatedStream
deriving DecidableEq, Repr

/-- The `HuffmanNode` dataclass of `huff.py`: `value` is the character of a
leaf (`None` on internal nodes), `freq` the weight, `left`/`right` the
optional children (`None`, `None` on leaves). -/
inductive HuffmanNode : Type where
  | mk (value : Option Symbol) (freq : Nat)
      (left : Option HuffmanNode) (right : Option HuffmanNode)
deriving Repr

/-- Accessor for the `value` field. -/
def HuffmanNode.value : HuffmanNode → Option Symbol
  | .mk v _ _ _ => v

theorem HuffmanNode.value_mk (v : Option Symbol) (f : Nat)
    (l r : Option HuffmanNode) : (HuffmanNode.mk v f l r).value = v := rfl

/-- Accessor for the `freq` field. -/
def HuffmanNode.freq : HuffmanNode → Nat
  | .mk _ f _ _ => f

theorem HuffmanNode.freq_mk (v : Option Symbol) (f : Nat)
    (l r : Option HuffmanNode) : (HuffmanNode.mk v f l r).freq = f := rfl

/-- Accessor for the `left` field. -/
def HuffmanNode.left : HuffmanNode → Option HuffmanNode
  | .mk _ _ l _ => l

/-- Accessor for the `right` field. -/
def HuffmanNode.right : HuffmanNode → Option HuffmanNode
  | .mk _ _ _ r => r

/-- `construct_frequency_table`: folds over the string, at each character
taking the existing node for that character code (or a fresh
`HuffmanNode(char, 0)` when the entry is still `None` — Python's
`frequency_table[ord(char)] or HuffmanNode(char, 0)`, dataclass instances
being always truthy), bumping its `freq` and storing it back.  The table
always has length `ASCII_MAX`, so the `ord(char)` index is in range. -/
def construct_frequency_table (string : List Symbol) : List (Option HuffmanNode) :=
  string.foldl
    (fun frequency_table char =>
      let node := (frequency_table.getD char.val none).getD
        (HuffmanNode.mk (some char) 0 none none)
      let node := HuffmanNode.mk node.value (node.freq + 1) node.left node.right
      frequency_table.set char.val (some node))
    (List.replicate ASCII_MAX none)

/-- `_popmin`: given the two sorted lists, pops the front of whichever has
the smaller head (`list2` only when its head is strictly smaller, per
`list2[0].freq < list1[0].freq`), returning the popped node and both lists
after the pop.  `assertionError` is the failing `assert len(list1) +
len(list2) > 0` when both are empty. -/
def popmin : List HuffmanNode → List HuffmanNode →
    Except PyErr (HuffmanNode × List HuffmanNode × List HuffmanNode)
  | [], [] => .error .assertionError
  | [], b :: list2 => .ok (b, [], list2)
  | a :: list1, [] => .ok (a, list1, [])
  | a :: list1, b :: list2 =>
    if b.freq < a.freq then .ok (b, a :: list1, list2)
    else .ok (a, list1, b :: list2)

/-- A successful `popmin` shrinks the combined length by one. -/
theorem popmin_length {l1 l2 : List HuffmanNode} {x : HuffmanNode}
    {l1' l2' : List HuffmanNode} (h : popmin l1 l2 = .ok (x, l1', l2')) :
    l1'.length + l2'.length + 1 = l1.length + l2.length := by
  match l1, l2 with
  | [], [] => simp [popmin] at h
  | [], b :: t =>
    simp only [popmin, Except.ok.injEq, Prod.mk.injEq] at h
    obtain ⟨rfl, rfl, rfl⟩ := h
    simp
  | a :: t, [] =>
    simp only [popmin, Except.ok.injEq, Prod.mk.injEq] at h
    obtain ⟨rfl, rfl, rfl⟩ := h
    simp
  | a :: t1, b :: t2 =>
    simp only [popmin] at h
    split at h <;>
      (simp only [Except.ok.injEq, Prod.mk.injEq] at h
       obtain ⟨rfl, rfl, rfl⟩ := h
       simp <;> omega)

/-- `node_queue[0]`: the head of the list, or the `IndexError` that Python
raises when the list is empty. -/
def index0 : List HuffmanNode → Except PyErr HuffmanNode
  | [] => .error .indexError
  | x :: _ => .ok x

/-- The `while` loop of `construct_huffman_tree`, followed by the final
`return node_queue[0]`: while more than one node is pending, pop the two
minima and append the merged internal node to `node_queue`; at exit return
`node_queue[0]` (an `IndexError` when the loop never ran and produced no
node, i.e. fewer than two initial leaves). -/
def buildLoop (queue node_queue : List HuffmanNode) : Except PyErr HuffmanNode :=
  if queue.length + node_queue.length > 1 then
    match h1 : popmin queue node_queue with
    | .error e => .error e
    | .ok (first, q1, n1) =>
      match h2 : popmin q1 n1 with
      | .error e => .error e
      | .ok (second, q2, n2) =>
        buildLoop q2
          (n2 ++ [HuffmanNode.mk none (first.freq + second.freq) (some first) (some second)])
  else
    index0 node_queue
termination_by queue.length + node_queue.length
decreasing_by
  have e1 := popmin_length h1
  have e2 := popmin_length h2
  simp only [List.length_append, List.length_cons, List.length_nil]
  omega

/-- `construct_huffman_tree`: filters the `None` entries out of the table
(`[node for node in frequency_table if node]`; dataclass instances are
always truthy), sorts the survivors by `freq` (Python's `sorted` is a
stable sort, as is `List.mergeSort`), and runs the merge loop with an
initially empty `node_queue`. -/
def construct_huffman_tree (frequency_table : List (Option HuffmanNode)) :
    Except PyErr HuffmanNode :=
  buildLoop
    ((frequency_table.filterMap id).mergeSort (fun a b => Nat.ble a.freq b.freq)) []

/-- `construct_dict`: the two defaulted parameters are `Option`s
(`None` when omitted).  `if not dictionary or not prefix:` resets both to
`[None] * ASCII_MAX` and `[]` when either is `None` or an empty list.  A
node with a truthy `value` (any one-character string, hence any `some`)
has its codeword entry set to the current prefix; recursion then descends
left with a `False` appended and right with a `True` appended.  The
dictionary entry index `ord(node.value)` is always below `ASCII_MAX`, the
dictionary length in every call of this development. -/
def construct_dict : Option HuffmanNode → Option (List (Option (List Bool))) →
    Option (List Bool) → List (Option (List Bool))
  | node, dictionary, pre =>
    let reset : Bool :=
      (match dictionary with | none => true | some d => d.isEmpty) ||
      (match pre with | none => true | some p => p.isEmpty)
    let d : List (Option (List Bool)) :=
      if reset then List.replicate ASCII_MAX none else dictionary.getD []
    let p : List Bool := if reset then [] else pre.getD []
    match node with
    | none => d
    | some (.mk v _ l r) =>
      let d1 := match v with
        | some c => d.set c.val (some p)
        | none => d
      let d2 := construct_dict l (some d1) (some (p ++ [false]))
      construct_dict r (some d2) (some (p ++ [true]))

/-- The loop body of `encode`: `out += dictionary[ord(char)]`.  A missing
table entry is `None`, and `out += None` raises `TypeError`; an index past
the end of the dictionary would raise `IndexError` (never reached when the
dictionary has length `ASCII_MAX`). -/
def encodeLoop : List Symbol → List (Option (List Bool)) → List Bool →
    Except PyErr (List Bool)
  | [], _, out => .ok out
  | char :: rest, dictionary, out =>
    match dictionary[char.val]? with
    | none => .error .indexError
    | some none => .error .typeError
    | some (some sequence) => encodeLoop rest dictionary (out ++ sequence)

/-- `encode`: concatenates each character's codeword in input order. -/
def encode (string : List Symbol) (dictionary : List (Option (List Bool))) :
    Except PyErr (List Bool) :=
  encodeLoop string dictionary []

/-- The loop body of `decode`: step to `right` on a `True` bit, `left` on a
`False` bit; if the stepped-to node is `None`, the following
`curr_node.value` access raises `AttributeError`; if it has a truthy
`value` (a leaf), emit the symbol and reset to the root; otherwise
continue from it.  When the bits run out, return what was decoded. -/
def decodeGo (root : HuffmanNode) : List Bool → HuffmanNode → List Symbol →
    Except PyErr (List Symbol)
  | [], _, out => .ok out
  | bit :: rest, curr_node, out =>
    match (if bit then curr_node.right else curr_node.left) with
    | none => .error .attributeError
    | some next =>
      match next.value with
      | some v => decodeGo root rest root (out ++ [v])
      | none => decodeGo root rest next out

/-- `decode`: walk the tree bit-by-bit from the root, emitting a symbol and
resetting to the root at each leaf. -/
def decode (bit_list : List Bool) (root : HuffmanNode) : Except PyErr (List Symbol) :=
  decodeGo root bit_list root []

/-! ## Proof-side definitions -/

/-- Well-formed tree: the only two node shapes the pipeline ever creates —
a leaf carrying a symbol and no children, or an internal node carrying no
symbol and two children. -/
inductive Wf : HuffmanNode → Prop where
  | leaf (c : Symbol) (f : Nat) : Wf (.mk (some c) f none none)
  | node (f : Nat) {l r : HuffmanNode} (hl : Wf l) (hr : Wf r) :
      Wf (.mk none f (some l) (some r))

/-- The (symbol, codeword) pairs recorded by a traversal of the tree with
accumulated prefix `p`, in the traversal order of `construct_dict`: the
node's own entry first, then the left subtree (`False` appended), then the
right subtree (`True` appended). -/
def codes : HuffmanNode → List Bool → List (Symbol × List Bool)
  | .mk v _ l r, p =>
    (match v with | some c => [(c, p)] | none => []) ++
    ((match l with | none => [] | some ln => codes ln (p ++ [false])) ++
     (match r with | none => [] | some rn => codes rn (p ++ [true])))

/-- The symbols at the leaves of a well-formed tree, in traversal order. -/
def syms (n : HuffmanNode) : List Symbol :=
  (codes n []).map Prod.fst

/-- The distinct symbols occurring in `s`, in character-code order. -/
def distinctSyms (s : List Symbol) : List Symbol :=
  (List.finRange 256).filterMap (fun i => if 0 < s.count i then some i else none)

/-- `u` is a (not necessarily proper) front segment of `v`. -/
def isCodePre (u v : List Bool) : Prop :=
  ∃ t, u ++ t = v

/-- Closed form of the frequency table: entry `i` holds a leaf for
character code `i` with `freq` the number of occurrences, or `None` when
the character does not occur. -/
def modelTable (s : List Symbol) : List (Option HuffmanNode) :=
  (List.finRange 256).map (fun i =>
    if 0 < s.count i then some (HuffmanNode.mk (some i) (s.count i) none none) else none)

/-- The one `dictionary` update step of `construct_dict`. -/
def dictStep (d : List (Option (List Bool))) (cw : Symbol × List Bool) :
    List (Option (List Bool)) :=
  d.set cw.1.val (some cw.2)

/-- Sortedness by `freq`, the order maintained on both pending lists. -/
def sortedByFreq (l : List HuffmanNode) : Prop :=
  l.Pairwise (fun a b => a.freq ≤ b.freq)

/-- The invariant of the tree-builder loop: both pending lists are sorted
by weight, every pending node weighs at least `lb` (the weight of the
second node removed by the most recent merge, `0` initially), and the most
recently appended merged node — the last of `node_queue` — weighs at most
`2 * lb`. -/
def BuilderInv (queue node_queue : List HuffmanNode) (lb : Nat) : Prop :=
  sortedByFreq queue ∧ sortedByFreq node_queue ∧
  (∀ x ∈ queue ++ node_queue, lb ≤ x.freq) ∧
  (∀ y, node_queue.getLast? = some y → y.freq ≤ 2 * lb)

/-! ## Structural induction for the nested inductive -/

/-- Induction over `HuffmanNode` through the `Option` children. -/
theorem HuffmanNode.ind (motive : HuffmanNode → Prop)
    (h : ∀ v f l r, (∀ x, l = some x → motive x) → (∀ x, r = some x → motive x) →
      motive (.mk v f l r)) : ∀ n, motive n
  | .mk v f l r =>
    h v f l r
      (fun x hx => HuffmanNode.ind motive h x)
      (fun x hx => HuffmanNode.ind motive h x)
termination_by n => sizeOf n
decreasing_by
  · subst hx; simp; omega
  · subst hx; simp; omega

/-! ## Lemmas about `codes` and `syms` -/

theorem codes_leaf (c : Symbol) (f : Nat) (p : List Bool) :
    codes (.mk (some c) f none none) p = [(c, p)] := by
  simp [codes]

theorem codes_node (f : Nat) (l r : HuffmanNode) (p : List Bool) :
    codes (.mk none f (some l) (some r)) p =
      codes l (p ++ [false]) ++ codes r (p ++ [true]) := by
  simp [codes]

/-- Changing the accumulated prefix only re-prefixes every codeword. -/
theorem codes_shift (n : HuffmanNode) :
    ∀ p, codes n p = (codes n []).map (fun cw => (cw.1, p ++ cw.2)) := by
  induction n using HuffmanNode.ind with
  | h v f l r ihl ihr =>
    intro p
    cases v <;> cases l <;> cases r <;>
      (simp only [codes, List.nil_append]
       try rw [ihl _ rfl (p ++ [false]), ihl _ rfl ([false])]
       try rw [ihr _ rfl (p ++ [true]), ihr _ rfl ([true])]
       simp [List.map_map, Function.comp_def, List.append_assoc])

theorem syms_leaf (c : Symbol) (f : Nat) :
    syms (.mk (some c) f none none) = [c] := by
  simp [syms, codes]

theorem syms_node (f : Nat) (l r : HuffmanNode) :
    syms (.mk none f (some l) (some r)) = syms l ++ syms r := by
  simp only [syms, codes_node, List.nil_append, List.map_append]
  rw [codes_shift l, codes_shift r]
  simp [List.map_map, Function.comp_def]

theorem mem_syms_iff {n : HuffmanNode} {c : Symbol} :
    c ∈ syms n ↔ ∃ w, (c, w) ∈ codes n [] := by
  constructor
  · intro h
    obtain ⟨⟨c', w⟩, hmem, hc⟩ := List.mem_map.1 h
    have hc' : c' = c := hc
    subst hc'
    exact ⟨w, hmem⟩
  · rintro ⟨w, hmem⟩
    exact List.mem_map.2 ⟨(c, w), hmem, rfl⟩

/-! ## Lemmas about `popmin` -/

/-- A successful `popmin` pops the head of one of the two lists and leaves
the other untouched. -/
theorem popmin_cases {l1 l2 : List HuffmanNode} {x : HuffmanNode}
    {l1' l2' : List HuffmanNode} (h : popmin l1 l2 = .ok (x, l1', l2')) :
    (l1 = x :: l1' ∧ l2' = l2) ∨ (l2 = x :: l2' ∧ l1' = l1) := by
  match l1, l2 with
  | [], [] => simp [popmin] at h
  | [], b :: t =>
    simp only [popmin, Except.ok.injEq, Prod.mk.injEq] at h
    obtain ⟨rfl, rfl, rfl⟩ := h
    right; exact ⟨rfl, rfl⟩
  | a :: t, [] =>
    simp only [popmin, Except.ok.injEq, Prod.mk.injEq] at h
    obtain ⟨rfl, rfl, rfl⟩ := h
    left; exact ⟨rfl, rfl⟩
  | a :: t1, b :: t2 =>
    simp only [popmin] at h
    split at h <;>
      (simp only [Except.ok.injEq, Prod.mk.injEq] at h
       obtain ⟨rfl, rfl, rfl⟩ := h)
    · right; exact ⟨rfl, rfl⟩
    · left; exact ⟨rfl, rfl⟩

/-- What `popmin` pops, together with the remainders, is a permutation of
the two input lists. -/
theorem popmin_perm {l1 l2 : List HuffmanNode} {x : HuffmanNode}
    {l1' l2' : List HuffmanNode} (h : popmin l1 l2 = .ok (x, l1', l2')) :
    (x :: (l1' ++ l2')).Perm (l1 ++ l2) := by
  rcases popmin_cases h with ⟨rfl, rfl⟩ | ⟨rfl, rfl⟩
  · rfl
  · exact List.perm_middle.symm

/-- `popmin` succeeds whenever at least one node is pending. -/
theorem popmin_ok {l1 l2 : List HuffmanNode} (h : l1 ++ l2 ≠ []) :
    ∃ x l1' l2', popmin l1 l2 = .ok (x, l1', l2') := by
  match l1, l2 with
  | [], [] => exact absurd rfl h
  | [], b :: t => exact ⟨b, [], t, rfl⟩
  | a :: t, [] => exact ⟨a, t, [], rfl⟩
  | a :: t1, b :: t2 =>
    by_cases hb : b.freq < a.freq
    · exact ⟨b, a :: t1, t2, by simp [popmin, hb]⟩
    · exact ⟨a, t1, b :: t2, by simp [popmin, hb]⟩

/-- With both lists sorted by weight, `popmin` pops a node of smallest
weight among all pending nodes. -/
theorem popmin_min {l1 l2 : List HuffmanNode} {x : HuffmanNode}
    {l1' l2' : List HuffmanNode} (h1 : sortedByFreq l1) (h2 : sortedByFreq l2)
    (h : popmin l1 l2 = .ok (x, l1', l2')) :
    ∀ z ∈ l1 ++ l2, x.freq ≤ z.freq := by
  match l1, l2 with
  | [], [] => simp [popmin] at h
  | [], b :: t =>
    simp only [popmin, Except.ok.injEq, Prod.mk.injEq] at h
    obtain ⟨rfl, rfl, rfl⟩ := h
    intro z hz
    rcases List.mem_cons.1 (by simpa using hz) with rfl | hz
    · exact le_refl _
    · exact (List.pairwise_cons.1 h2).1 z hz
  | a :: t, [] =>
    simp only [popmin, Except.ok.injEq, Prod.mk.injEq] at h
    obtain ⟨rfl, rfl, rfl⟩ := h
    intro z hz
    rcases List.mem_cons.1 (by simpa using hz) with rfl | hz
    · exact le_refl _
    · exact (List.pairwise_cons.1 h1).1 z hz
  | a :: t1, b :: t2 =>
    have ha := (List.pairwise_cons.1 h1).1
    have hb := (List.pairwise_cons.1 h2).1
    simp only [popmin] at h
    split at h <;>
      (simp only [Except.ok.injEq, Prod.mk.injEq] at h
       obtain ⟨rfl, rfl, rfl⟩ := h)
    case isTrue hlt =>
      intro z hz
      rcases List.mem_append.1 hz with hz | hz
      · rcases List.mem_cons.1 hz with rfl | hz
        · exact le_of_lt hlt
        · exact le_trans (le_of_lt hlt) (ha z hz)
      · rcases List.mem_cons.1 hz with rfl | hz
        · exact le_refl _
        · exact hb z hz
    case isFalse hge =>
      intro z hz
      rcases List.mem_append.1 hz with hz | hz
      · rcases List.mem_cons.1 hz with rfl | hz
        · exact le_refl _
        · exact ha z hz
      · rcases List.mem_cons.1 hz with rfl | hz
        · exact le_of_not_lt hge
        · exact le_trans (le_of_not_lt hge) (hb z hz)

/-- `popmin` leaves both remainder lists sorted. -/
theorem popmin_sorted {l1 l2 : List HuffmanNode} {x : HuffmanNode}
    {l1' l2' : List HuffmanNode} (h1 : sortedByFreq l1) (h2 : sortedByFreq l2)
    (h : popmin l1 l2 = .ok (x, l1', l2')) :
    sortedByFreq l1' ∧ sortedByFreq l2' := by
  rcases popmin_cases h with ⟨rfl, rfl⟩ | ⟨rfl, rfl⟩
  · exact ⟨(List.pairwise_cons.1 h1).2, h2⟩
  · exact ⟨h1, (List.pairwise_cons.1 h2).2⟩

/-! ## Unfolding lemmas for `buildLoop` -/

/-- One round of the merge loop. -/
theorem buildLoop_step {q nq q1 n1 q2 n2 : List HuffmanNode}
    {x y : HuffmanNode}
    (hgt : q.length + nq.length > 1)
    (h1 : popmin q nq = .ok (x, q1, n1))
    (h2 : popmin q1 n1 = .ok (y, q2, n2)) :
    buildLoop q nq =
      buildLoop q2 (n2 ++ [HuffmanNode.mk none (x.freq + y.freq) (some x) (some y)]) := by
  rw [buildLoop.eq_def, if_pos hgt]
  split
  · rename_i e heq
    rw [h1] at heq
    simp at heq
  · rename_i x' q1' n1' heq
    rw [h1] at heq
    simp only [Except.ok.injEq, Prod.mk.injEq] at heq
    obtain ⟨rfl, rfl, rfl⟩ := heq
    split
    · rename_i e heq'
      rw [h2] at heq'
      simp at heq'
    · rename_i y' q2' n2' heq'
      rw [h2] at heq'
      simp only [Except.ok.injEq, Prod.mk.injEq] at heq'
      obtain ⟨rfl, rfl, rfl⟩ := heq'
      rfl

/-- The loop's exit: at most one pending node, return `node_queue[0]`. -/
theorem buildLoop_stop {q nq : List HuffmanNode}
    (hle : ¬ q.length + nq.length > 1) :
    buildLoop q nq = index0 nq := by
  rw [buildLoop.eq_def, if_neg hle]

/-- The merge loop succeeds whenever at least two nodes are pending, or the
`node_queue` is non-empty (the states reachable from an initial queue of at
least two leaves). -/
theorem buildLoop_ok :
    ∀ (N : Nat) (q nq : List HuffmanNode),
      q.length + nq.length ≤ N →
      2 ≤ q.length + nq.length ∨ nq ≠ [] →
      ∃ root, buildLoop q nq = .ok root := by
  intro N
  induction N with
  | zero =>
    intro q nq hN hcond
    have hq : q = [] := List.length_eq_zero.1 (by omega)
    have hn : nq = [] := List.length_eq_zero.1 (by omega)
    subst hq; subst hn
    rcases hcond with h2 | hne
    · simp at h2
    · exact absurd rfl hne
  | succ N ih =>
    intro q nq hN hcond
    by_cases hgt : q.length + nq.length > 1
    · have hne1 : q ++ nq ≠ [] := by
        intro hc
        have hlc := congrArg List.length hc
        simp only [List.length_append, List.length_nil] at hlc
        omega
      obtain ⟨x, q1, n1, hp1⟩ := popmin_ok hne1
      have hlen1 := popmin_length hp1
      have hne2 : q1 ++ n1 ≠ [] := by
        intro hc
        have hlc := congrArg List.length hc
        simp only [List.length_append, List.length_nil] at hlc
        omega
      obtain ⟨y, q2, n2, hp2⟩ := popmin_ok hne2
      have hlen2 := popmin_length hp2
      rw [buildLoop_step hgt hp1 hp2]
      apply ih
      · simp only [List.length_append, List.length_cons, List.length_nil]
        omega
      · right
        intro hc
        have hlc := congrArg List.length hc
        simp at hlc
    · rcases hcond with h2 | hne
      · omega
      · match nq, hne with
        | [], hne => exact absurd rfl hne
        | x :: t, _ =>
          exact ⟨x, by rw [buildLoop_stop hgt]; rfl⟩

/-- The structural invariant of the merge loop: if every pending node is
well-formed and every `node_queue` node is internal (no `value`), then a
successful run returns a well-formed internal root whose leaf symbols are
a permutation of all pending leaf symbols. -/
theorem buildLoop_invariant :
    ∀ (N : Nat) (q nq : List HuffmanNode) (root : HuffmanNode),
      q.length + nq.length ≤ N →
      buildLoop q nq = .ok root →
      (∀ x ∈ q ++ nq, Wf x) →
      (∀ x ∈ nq, x.value = none) →
      Wf root ∧ ((q ++ nq).flatMap syms).Perm (syms root) ∧ root.value = none := by
  intro N
  induction N with
  | zero =>
    intro q nq root hN h hwf hval
    have hq : q = [] := List.length_eq_zero.1 (by omega)
    have hn : nq = [] := List.length_eq_zero.1 (by omega)
    subst hq; subst hn
    rw [buildLoop_stop (by simp)] at h
    simp [index0] at h
  | succ N ih =>
    intro q nq root hN h hwf hval
    by_cases hgt : q.length + nq.length > 1
    · have hne1 : q ++ nq ≠ [] := by
        intro hc
        have hlc := congrArg List.length hc
        simp only [List.length_append, List.length_nil] at hlc
        omega
      obtain ⟨x, q1, n1, hp1⟩ := popmin_ok hne1
      have hlen1 := popmin_length hp1
      have hne2 : q1 ++ n1 ≠ [] := by
        intro hc
        have hlc := congrArg List.length hc
        simp only [List.length_append, List.length_nil] at hlc
        omega
      obtain ⟨y, q2, n2, hp2⟩ := popmin_ok hne2
      have hlen2 := popmin_length hp2
      rw [buildLoop_step hgt hp1 hp2] at h
      have hperm1 := popmin_perm hp1
      have hperm2 := popmin_perm hp2
      have hx : x ∈ q ++ nq := hperm1.subset (List.mem_cons_self _ _)
      have hy : y ∈ q ++ nq :=
        hperm1.subset (List.mem_cons_of_mem _ (hperm2.subset (List.mem_cons_self _ _)))
      have hsub2 : ∀ z ∈ q2 ++ n2, z ∈ q ++ nq := fun z hz =>
        hperm1.subset (List.mem_cons_of_mem _ (hperm2.subset (List.mem_cons_of_mem _ hz)))
      have hn2sub : ∀ z ∈ n2, z ∈ nq := by
        intro z hz
        have hz1 : z ∈ n1 := by
          rcases popmin_cases hp2 with ⟨rfl, rfl⟩ | ⟨hn1, rfl⟩
          · exact hz
          · rw [hn1]; exact List.mem_cons_of_mem _ hz
        rcases popmin_cases hp1 with ⟨rfl, rfl⟩ | ⟨hnq, rfl⟩
        · exact hz1
        · rw [hnq]; exact List.mem_cons_of_mem _ hz1
      have ihres := ih q2 (n2 ++ [HuffmanNode.mk none (x.freq + y.freq) (some x) (some y)]) root
        (by simp only [List.length_append, List.length_cons, List.length_nil]; omega)
        h
        (by
          intro z hz
          rcases List.mem_append.1 hz with hz | hz
          · exact hwf z (hsub2 z (List.mem_append.2 (Or.inl hz)))
          · rcases List.mem_append.1 hz with hz | hz
            · exact hwf z (hsub2 z (List.mem_append.2 (Or.inr hz)))
            · rcases List.mem_singleton.1 hz with rfl
              exact Wf.node _ (hwf x hx) (hwf y hy))
        (by
          intro z hz
          rcases List.mem_append.1 hz with hz | hz
          · exact hval z (hn2sub z hz)
          · rcases List.mem_singleton.1 hz with rfl
            rfl)
      refine ⟨ihres.1, ?_, ihres.2.2⟩
      have key : ((q ++ nq).flatMap syms).Perm
          ((q2 ++ (n2 ++ [HuffmanNode.mk none (x.freq + y.freq) (some x) (some y)])).flatMap syms) := by
        refine (hperm1.symm.flatMap_right syms).trans ?_
        rw [List.flatMap_cons]
        refine (List.Perm.append_left (syms x) (hperm2.symm.flatMap_right syms)).trans ?_
        rw [List.flatMap_cons]
        simp only [List.flatMap_append, List.flatMap_cons, List.flatMap_nil, List.append_nil]
        rw [syms_node]
        have ha : syms x ++ (syms y ++ (q2.flatMap syms ++ n2.flatMap syms))
            = (syms x ++ syms y) ++ (q2.flatMap syms ++ n2.flatMap syms) := by
          simp [List.append_assoc]
        have hb : q2.flatMap syms ++ (n2.flatMap syms ++ (syms x ++ syms y))
            = (q2.flatMap syms ++ n2.flatMap syms) ++ (syms x ++ syms y) := by
          simp [List.append_assoc]
        rw [ha, hb]
        exact List.perm_append_comm
      exact key.trans ihres.2.1
    · rw [buildLoop_stop hgt] at h
      match nq, h, hval with
      | [], h, _ => exact absurd h (by simp [index0])
      | x :: t, h, hval =>
        have hroot : root = x := by
          simp only [index0, Except.ok.injEq] at h
          exact h.symm
        have hq : q = [] := by
          have hle : q.length + (x :: t).length ≤ 1 := Nat.not_lt.1 hgt
          simp only [List.length_cons] at hle
          exact List.length_eq_zero.1 (by omega)
        have ht : t = [] := by
          have hle : q.length + (x :: t).length ≤ 1 := Nat.not_lt.1 hgt
          simp only [List.length_cons] at hle
          exact List.length_eq_zero.1 (by omega)
        subst hq; subst ht
        rw [hroot]
        refine ⟨hwf x (by simp), ?_, hval x (by simp)⟩
        simp

/-! ## The frequency table in closed form -/

/-- The frequency table equals its closed form: entry `i` is a leaf for
character `i` weighted by its occurrence count, `None` when absent. -/
theorem ftable_eq (s : List Symbol) : construct_frequency_table s = modelTable s := by
  induction s using List.reverseRecOn with
  | nil =>
    apply List.ext_getElem
    · simp [construct_frequency_table, modelTable, ASCII_MAX]
    · intro i h1 h2
      simp [construct_frequency_table, modelTable, ASCII_MAX]
  | append_singleton s c ih =>
    have hstep : construct_frequency_table (s ++ [c]) =
        (construct_frequency_table s).set c.val
          (some (HuffmanNode.mk
            (((construct_frequency_table s).getD c.val none).getD
              (HuffmanNode.mk (some c) 0 none none)).value
            ((((construct_frequency_table s).getD c.val none).getD
              (HuffmanNode.mk (some c) 0 none none)).freq + 1)
            (((construct_frequency_table s).getD c.val none).getD
              (HuffmanNode.mk (some c) 0 none none)).left
            (((construct_frequency_table s).getD c.val none).getD
              (HuffmanNode.mk (some c) 0 none none)).right)) := by
      simp only [construct_frequency_table, List.foldl_append, List.foldl_cons, List.foldl_nil]
    have hlen : (modelTable s).length = 256 := by simp [modelTable]
    have hcval : c.val < (modelTable s).length := by rw [hlen]; exact c.isLt
    have hget : (modelTable s).getD c.val none =
        if 0 < s.count c then some (HuffmanNode.mk (some c) (s.count c) none none)
        else none := by
      rw [List.getD_eq_getElem?_getD, List.getElem?_eq_getElem hcval]
      simp [modelTable]
    rw [hstep, ih, hget]
    by_cases hc : 0 < s.count c <;>
      (simp only [hc, if_true, if_false, Option.getD_some, Option.getD_none,
        HuffmanNode.value, HuffmanNode.freq, HuffmanNode.left, HuffmanNode.right]
       apply List.ext_getElem
       · simp [modelTable]
       · intro i hh1 hh2
         have hi : i < 256 := by
           have := hh2
           simp [modelTable] at this
           exact this
         by_cases hic : c.val = i
         · subst hic
           rw [List.getElem_set_self]
           simp only [modelTable, List.getElem_map, List.getElem_finRange, Fin.cast_mk,
             Fin.eta, List.count_append]
           simp [List.count_cons]
           try omega
         · rw [List.getElem_set_ne hic]
           simp only [modelTable, List.getElem_map, List.getElem_finRange, Fin.cast_mk,
             Fin.eta, List.count_append]
           have hne : (⟨i, hi⟩ : Symbol) ≠ c := by
             intro hh
             exact hic (congrArg Fin.val hh).symm
           simp [List.count_singleton', hne, List.count_cons]
           )

/-! ## The leaves drawn from the frequency table -/

theorem filterMap_modelTable (s : List Symbol) :
    (modelTable s).filterMap id =
      (List.finRange 256).filterMap (fun i =>
        if 0 < s.count i then some (HuffmanNode.mk (some i) (s.count i) none none)
        else none) := by
  rw [modelTable, List.filterMap_map]
  rfl

/-- Flattening `syms` over an if-guarded list of leaves built from symbols
keeps exactly the guarded symbols. -/
theorem flatMap_syms_guard (P : Symbol → Bool) (g : Symbol → Nat) (l : List Symbol) :
    ((l.filterMap (fun i =>
        if P i then some (HuffmanNode.mk (some i) (g i) none none) else none)).flatMap
      syms) = l.filterMap (fun i => if P i then some i else none) := by
  induction l with
  | nil => simp
  | cons a t ih =>
    by_cases hP : P a <;> simp [hP, ih, syms_leaf]

/-- The leaf symbols pending at the start of tree construction are exactly
the distinct symbols of the input. -/
theorem pendingSyms_eq (s : List Symbol) :
    ((construct_frequency_table s).filterMap id).flatMap syms = distinctSyms s := by
  rw [ftable_eq, filterMap_modelTable, distinctSyms]
  have h := flatMap_syms_guard (fun i => decide (0 < s.count i)) (fun i => s.count i)
    (List.finRange 256)
  simp only [decide_eq_true_eq] at h
  exact h

theorem distinctSyms_nodup (s : List Symbol) : (distinctSyms s).Nodup := by
  apply List.Nodup.filterMap
  · intro a a' b hb hb'
    by_cases ha : 0 < s.count a
    · by_cases ha' : 0 < s.count a'
      · simp only [ha, ha', if_true, Option.mem_def, Option.some.injEq] at hb hb'
        rw [hb, hb']
      · simp [ha'] at hb'
    · simp [ha] at hb
  · exact List.nodup_finRange 256

theorem mem_distinctSyms {s : List Symbol} {c : Symbol} :
    c ∈ distinctSyms s ↔ c ∈ s := by
  constructor
  · intro h
    obtain ⟨i, _, hi⟩ := List.mem_filterMap.1 h
    by_cases hc : 0 < s.count i
    · simp only [hc, if_true, Option.some.injEq] at hi
      subst hi
      exact List.count_pos_iff.1 hc
    · simp [hc] at hi
  · intro h
    exact List.mem_filterMap.2 ⟨c, List.mem_finRange c,
      by simp [List.count_pos_iff.2 h]⟩

/-- Every node in the frequency table (hence in the initial queue) is a
leaf for its own symbol. -/
theorem mem_leaves {s : List Symbol} {n : HuffmanNode}
    (h : n ∈ (construct_frequency_table s).filterMap id) :
    ∃ c : Symbol, 0 < s.count c ∧ n = HuffmanNode.mk (some c) (s.count c) none none := by
  rw [ftable_eq, filterMap_modelTable] at h
  obtain ⟨i, _, hi⟩ := List.mem_filterMap.1 h
  by_cases hc : 0 < s.count i
  · simp only [hc, if_true, Option.some.injEq] at hi
    exact ⟨i, hc, hi.symm⟩
  · simp [hc] at hi

theorem leaf_mem_leaves {s : List Symbol} {c : Symbol} (h : c ∈ s) :
    HuffmanNode.mk (some c) (s.count c) none none ∈
      (construct_frequency_table s).filterMap id := by
  rw [ftable_eq, filterMap_modelTable]
  exact List.mem_filterMap.2 ⟨c, List.mem_finRange c,
    by simp [List.count_pos_iff.2 h]⟩

/-- A list holding two distinct elements has length at least two. -/
theorem two_le_length_of_two_mem {α : Type} {x y : α} {l : List α}
    (hx : x ∈ l) (hy : y ∈ l) (hxy : x ≠ y) : 2 ≤ l.length := by
  match l with
  | [] => exact absurd hx (List.not_mem_nil x)
  | [a] =>
    rcases List.mem_singleton.1 hx with rfl
    rcases List.mem_singleton.1 hy with rfl
    exact absurd rfl hxy
  | a :: b :: t => simp only [List.length_cons]; omega

/-! ## The tree produced by the pipeline -/

/-- For an input with at least two distinct symbols, `construct_huffman_tree`
succeeds and returns a well-formed internal root whose leaf symbols are a
permutation of the input's distinct symbols. -/
theorem tree_spec {s : List Symbol} {a b : Symbol}
    (ha : a ∈ s) (hb : b ∈ s) (hab : a ≠ b) :
    ∃ root, construct_huffman_tree (construct_frequency_table s) = .ok root ∧
      Wf root ∧ root.value = none ∧ (distinctSyms s).Perm (syms root) := by
  set leaves := (construct_frequency_table s).filterMap id with hleaves
  set queue := leaves.mergeSort (fun a b => Nat.ble a.freq b.freq) with hqueue
  have hqperm : queue.Perm leaves := List.mergeSort_perm leaves _
  have hla := leaf_mem_leaves ha
  have hlb := leaf_mem_leaves hb
  have hne : HuffmanNode.mk (some a) (s.count a) none none ≠
      HuffmanNode.mk (some b) (s.count b) none none := by
    intro h
    injection h with h1 h2 h3 h4
    exact hab (Option.some.inj h1)
  have h2 : 2 ≤ leaves.length := two_le_length_of_two_mem hla hlb hne
  have h2q : 2 ≤ queue.length := by rw [hqperm.length_eq]; exact h2
  obtain ⟨root, hroot⟩ := buildLoop_ok queue.length queue [] (by simp)
    (by left; simpa using h2q)
  have hwfall : ∀ x ∈ queue ++ [], Wf x := by
    intro x hx
    simp only [List.append_nil] at hx
    obtain ⟨c, hc, rfl⟩ := mem_leaves (hqperm.subset hx)
    exact Wf.leaf c _
  have hinv := buildLoop_invariant queue.length queue [] root (by simp) hroot hwfall
    (by simp)
  refine ⟨root, ?_, hinv.1, hinv.2.2, ?_⟩
  · rw [construct_huffman_tree]
    exact hroot
  · have hfin : ((queue ++ []).flatMap syms).Perm (syms root) := hinv.2.1
    rw [List.append_nil] at hfin
    have hq1 : (queue.flatMap syms).Perm (leaves.flatMap syms) := hqperm.flatMap_right syms
    have hq2 : leaves.flatMap syms = distinctSyms s := pendingSyms_eq s
    exact (hq2 ▸ hq1.symm).trans hfin

/-! ## `construct_dict` as a fold over `codes` -/

theorem foldl_dictStep_length (cs : List (Symbol × List Bool)) :
    ∀ d, (cs.foldl dictStep d).length = d.length := by
  induction cs with
  | nil => intro d; rfl
  | cons cw t ih =>
    intro d
    rw [List.foldl_cons, ih]
    simp [dictStep]

theorem construct_dict_none (d : List (Option (List Bool))) (p : List Bool)
    (hd : d ≠ []) (hp : p ≠ []) :
    construct_dict none (some d) (some p) = d := by
  have hdE : d.isEmpty = false := by
    cases d
    · exact absurd rfl hd
    · rfl
  have hpE : p.isEmpty = false := by
    cases p
    · exact absurd rfl hp
    · rfl
  rw [construct_dict]
  simp [hdE, hpE]

/-- The left-then-right recursion of `construct_dict`, as a fold. -/
theorem construct_dict_lr (l r : Option HuffmanNode)
    (hl : ∀ ln, l = some ln → ∀ d p, d ≠ [] → p ≠ [] →
      construct_dict (some ln) (some d) (some p) = (codes ln p).foldl dictStep d)
    (hr : ∀ rn, r = some rn → ∀ d p, d ≠ [] → p ≠ [] →
      construct_dict (some rn) (some d) (some p) = (codes rn p).foldl dictStep d)
    (d1 : List (Option (List Bool))) (p : List Bool) (hd1 : d1 ≠ []) :
    construct_dict r (some (construct_dict l (some d1) (some (p ++ [false]))))
        (some (p ++ [true])) =
      ((match l with | none => [] | some ln => codes ln (p ++ [false])) ++
       (match r with | none => [] | some rn => codes rn (p ++ [true]))).foldl
        dictStep d1 := by
  have hleft_eq : construct_dict l (some d1) (some (p ++ [false])) =
      (match l with | none => [] | some ln => codes ln (p ++ [false])).foldl
        dictStep d1 := by
    cases l with
    | none => exact construct_dict_none d1 (p ++ [false]) hd1 (by simp)
    | some ln => exact hl ln rfl d1 (p ++ [false]) hd1 (by simp)
  have hleft_ne : construct_dict l (some d1) (some (p ++ [false])) ≠ [] := by
    rw [hleft_eq]
    intro hc
    have hlc := congrArg List.length hc
    rw [foldl_dictStep_length] at hlc
    simp only [List.length_nil] at hlc
    exact hd1 (List.length_eq_zero.1 hlc)
  rw [List.foldl_append, ← hleft_eq]
  cases r with
  | none =>
    exact construct_dict_none _ (p ++ [true]) hleft_ne (by simp)
  | some rn =>
    exact hr rn rfl _ (p ++ [true]) hleft_ne (by simp)

/-- On a non-empty dictionary and prefix (i.e. away from the top-level
reset), `construct_dict` is the fold of entry updates over `codes`. -/
theorem construct_dict_go (n : HuffmanNode) :
    ∀ d p, d ≠ [] → p ≠ [] →
      construct_dict (some n) (some d) (some p) = (codes n p).foldl dictStep d := by
  induction n using HuffmanNode.ind with
  | h v f l r ihl ihr =>
    intro d p hd hp
    have hdE : d.isEmpty = false := by
      cases d
      · exact absurd rfl hd
      · rfl
    have hpE : p.isEmpty = false := by
      cases p
      · exact absurd rfl hp
      · rfl
    have hihl : ∀ ln, l = some ln → ∀ d p, d ≠ [] → p ≠ [] →
        construct_dict (some ln) (some d) (some p) = (codes ln p).foldl dictStep d :=
      fun ln hln => ihl ln hln
    have hihr : ∀ rn, r = some rn → ∀ d p, d ≠ [] → p ≠ [] →
        construct_dict (some rn) (some d) (some p) = (codes rn p).foldl dictStep d :=
      fun rn hrn => ihr rn hrn
    cases v with
    | none =>
      rw [construct_dict.eq_def]
      simp only [hdE, hpE, Bool.or_self, if_neg Bool.false_ne_true, Option.getD_some]
      rw [construct_dict_lr l r hihl hihr d p hd]
      rw [codes.eq_def]
      simp
    | some c =>
      rw [construct_dict.eq_def]
      simp only [hdE, hpE, Bool.or_self, if_neg Bool.false_ne_true, Option.getD_some]
      have hdset : d.set c.val (some p) ≠ [] := by
        intro hc
        have hlc := congrArg List.length hc
        simp only [List.length_set, List.length_nil] at hlc
        exact hd (List.length_eq_zero.1 hlc)
      rw [construct_dict_lr l r hihl hihr (d.set c.val (some p)) p hdset]
      rw [codes.eq_def]
      simp [List.foldl_append, dictStep]

/-- The top-level call `construct_dict(root_node)` (both defaulted
parameters `None`, hence the reset to a fresh 256-entry dictionary and
empty prefix) on an internal root is the fold of `codes` updates over the
fresh dictionary. -/
theorem construct_dict_top (f : Nat) (l r : HuffmanNode) :
    construct_dict (some (HuffmanNode.mk none f (some l) (some r))) none none =
      (codes (HuffmanNode.mk none f (some l) (some r)) []).foldl dictStep
        (List.replicate ASCII_MAX none) := by
  have hl : ∀ ln, (some l : Option HuffmanNode) = some ln → ∀ d p, d ≠ [] → p ≠ [] →
      construct_dict (some ln) (some d) (some p) = (codes ln p).foldl dictStep d := by
    intro ln hln d p hd hp
    cases hln
    exact construct_dict_go _ d p hd hp
  have hr : ∀ rn, (some r : Option HuffmanNode) = some rn → ∀ d p, d ≠ [] → p ≠ [] →
      construct_dict (some rn) (some d) (some p) = (codes rn p).foldl dictStep d := by
    intro rn hrn d p hd hp
    cases hrn
    exact construct_dict_go _ d p hd hp
  have hrepl : (List.replicate ASCII_MAX (none : Option (List Bool))) ≠ [] := by
    simp [ASCII_MAX]
  have hmain := construct_dict_lr (some l) (some r) hl hr
    (List.replicate ASCII_MAX none) [] hrepl
  rw [construct_dict.eq_def]
  simp only [List.isEmpty_nil, Bool.true_or, Bool.or_true, if_true, List.nil_append]
  simp only [List.nil_append] at hmain
  rw [codes_node]
  simp only [List.nil_append]
  rw [hmain]

/-! ## Dictionary entries -/

theorem foldl_dictStep_getD_not_mem (cs : List (Symbol × List Bool)) :
    ∀ d (c : Symbol), (∀ cw ∈ cs, cw.1 ≠ c) →
      (cs.foldl dictStep d).getD c.val none = d.getD c.val none := by
  induction cs with
  | nil => intro d c _; rfl
  | cons a t ih =>
    intro d c h
    rw [List.foldl_cons, ih _ c (fun cw hw => h cw (List.mem_cons_of_mem _ hw))]
    have hne : a.1.val ≠ c.val := fun hv => h a (List.mem_cons_self _ _) (Fin.ext hv)
    simp [dictStep, List.getD_eq_getElem?_getD, List.getElem?_set_ne hne]

theorem foldl_dictStep_getD_mem (cs : List (Symbol × List Bool)) :
    ∀ d (c : Symbol) (w : List Bool), d.length = 256 →
      (c, w) ∈ cs → (cs.map Prod.fst).Nodup →
      (cs.foldl dictStep d).getD c.val none = some w := by
  induction cs with
  | nil =>
    intro d c w _ h _
    cases h
  | cons a t ih =>
    intro d c w hd hmem hnodup
    rw [List.foldl_cons]
    have hnodup' : (t.map Prod.fst).Nodup := by
      rw [List.map_cons] at hnodup
      exact (List.pairwise_cons.1 hnodup).2
    rcases List.mem_cons.1 hmem with heq | hmem'
    · have hhead : ∀ b ∈ t.map Prod.fst, a.1 ≠ b := by
        rw [List.map_cons] at hnodup
        exact (List.pairwise_cons.1 hnodup).1
      rw [foldl_dictStep_getD_not_mem t _ c (by
        intro cw hw hcw
        have hane : a.1 ≠ cw.1 := hhead cw.1 (List.mem_map_of_mem Prod.fst hw)
        rw [← heq] at hane
        exact hane hcw.symm)]
      rw [← heq]
      have hc : c.val < d.length := by rw [hd]; exact c.isLt
      simp [dictStep, List.getD_eq_getElem?_getD, List.getElem?_set_self hc]
    · exact ih (dictStep d a) c w (by simp [dictStep, hd]) hmem' hnodup'

/-! ## The decoder walking codewords -/

/-- Inversion of the prefix shift: a codeword recorded under prefix `q`
is `q` followed by the codeword recorded under the empty prefix. -/
theorem codes_shift_mem {n : HuffmanNode} {c : Symbol} {w q : List Bool}
    (h : (c, w) ∈ codes n q) : ∃ w', w = q ++ w' ∧ (c, w') ∈ codes n [] := by
  rw [codes_shift n q] at h
  obtain ⟨⟨c1, w1⟩, hmem1, heq1⟩ := List.mem_map.1 h
  simp only [Prod.mk.injEq] at heq1
  obtain ⟨hc, hw⟩ := heq1
  rw [hc] at hmem1
  exact ⟨w1, hw.symm, hmem1⟩

/-- Walking a full codeword from an internal well-formed node emits that
codeword's symbol and resets the walk to the root. -/
theorem decodeGo_walk (root : HuffmanNode) {n : HuffmanNode} (hwf : Wf n) :
    ∀ c w rest out, n.value = none → (c, w) ∈ codes n [] →
      decodeGo root (w ++ rest) n out = decodeGo root rest root (out ++ [c]) := by
  induction hwf with
  | leaf c0 f0 =>
    intro c w rest out hval _
    simp [HuffmanNode.value] at hval
  | node f hl hr ihl ihr =>
    rename_i l r
    intro c w rest out _ hmem
    rw [codes_node] at hmem
    rcases List.mem_append.1 hmem with hmem | hmem
    · obtain ⟨w1, rfl, hmem1⟩ := codes_shift_mem hmem
      rw [List.nil_append, List.cons_append]
      rw [decodeGo.eq_def]
      simp only [if_false, Bool.false_eq_true, HuffmanNode.left]
      cases hl with
      | leaf c0 f0 =>
        rw [codes_leaf] at hmem1
        have heq2 := List.mem_singleton.1 hmem1
        simp only [Prod.mk.injEq] at heq2
        obtain ⟨hcc, hww⟩ := heq2
        subst hcc; subst hww
        simp [HuffmanNode.value]
      | node f1 hl1 hr1 =>
        simp only [HuffmanNode.value]
        exact ihl c w1 rest out rfl hmem1
    · obtain ⟨w1, rfl, hmem1⟩ := codes_shift_mem hmem
      rw [List.nil_append, List.cons_append]
      rw [decodeGo.eq_def]
      simp only [if_true, HuffmanNode.right]
      cases hr with
      | leaf c0 f0 =>
        rw [codes_leaf] at hmem1
        have heq2 := List.mem_singleton.1 hmem1
        simp only [Prod.mk.injEq] at heq2
        obtain ⟨hcc, hww⟩ := heq2
        subst hcc; subst hww
        simp [HuffmanNode.value]
      | node f1 hl1 hr1 =>
        simp only [HuffmanNode.value]
        exact ihr c w1 rest out rfl hmem1

/-- Decoding the concatenation of codewords of symbols in the tree, from
the root, appends exactly those symbols to the output. -/
theorem decodeGo_flatMap (root : HuffmanNode) (hwf : Wf root)
    (hval : root.value = none) (g : Symbol → List Bool) :
    ∀ (S : List Symbol) (out : List Symbol),
      (∀ c ∈ S, (c, g c) ∈ codes root []) →
      decodeGo root (S.flatMap g) root out = .ok (out ++ S) := by
  intro S
  induction S with
  | nil =>
    intro out _
    simp [decodeGo]
  | cons c t ih =>
    intro out hall
    rw [List.flatMap_cons]
    rw [decodeGo_walk root hwf c (g c) (t.flatMap g) out hval (hall c (by simp))]
    rw [ih (out ++ [c]) (fun c' hc' => hall c' (List.mem_cons_of_mem _ hc'))]
    simp

/-! ## The encoder -/

/-- The output accumulator of the encode loop distributes over the rest of
the computation. -/
theorem encodeLoop_out (s : List Symbol) (d : List (Option (List Bool))) :
    ∀ out, encodeLoop s d out = (encodeLoop s d []).map (fun bits => out ++ bits) := by
  induction s with
  | nil =>
    intro out
    simp [encodeLoop, Except.map]
  | cons c t ih =>
    intro out
    cases hentry : d[c.val]? with
    | none => simp [encodeLoop, hentry, Except.map]
    | some o =>
      cases o with
      | none => simp [encodeLoop, hentry, Except.map]
      | some w =>
        simp only [encodeLoop, hentry]
        rw [ih (out ++ w), ih ([] ++ w)]
        cases encodeLoop t d [] <;> simp [Except.map, List.append_assoc]

/-- When every input symbol has a dictionary entry, `encode` returns the
concatenation of the entries in input order. -/
theorem encode_ok (d : List (Option (List Bool))) (hd : d.length = 256) :
    ∀ S : List Symbol, (∀ c ∈ S, (d.getD c.val none).isSome) →
      encode S d = .ok (S.flatMap (fun c => (d.getD c.val none).getD [])) := by
  intro S
  induction S with
  | nil => intro _; rfl
  | cons c t ih =>
    intro hall
    obtain ⟨w, hw⟩ := Option.isSome_iff_exists.1 (hall c (by simp))
    have hcd : c.val < d.length := by rw [hd]; exact c.isLt
    have hgetD : d.getD c.val none = d[c.val] := by
      rw [List.getD_eq_getElem?_getD, List.getElem?_eq_getElem hcd]
      rfl
    have hentry : d[c.val]? = some (some w) := by
      rw [List.getElem?_eq_getElem hcd, ← hgetD, hw]
    have iht := ih (fun c' hc' => hall c' (List.mem_cons_of_mem _ hc'))
    rw [encode] at iht
    rw [encode]
    simp only [encodeLoop, hentry]
    rw [encodeLoop_out t d ([] ++ w), iht]
    rw [List.flatMap_cons, hw]
    simp [Except.map]

/-- When some input symbol is missing from the dictionary, the encode loop
raises a `TypeError` (`out += None`). -/
theorem encodeLoop_missing (d : List (Option (List Bool))) (hd : d.length = 256) :
    ∀ (S : List Symbol) (out : List Bool),
      (∃ c ∈ S, d.getD c.val none = none) →
      encodeLoop S d out = .error .typeError := by
  intro S
  induction S with
  | nil =>
    intro out hex
    obtain ⟨c, hc, _⟩ := hex
    cases hc
  | cons c t ih =>
    intro out hex
    have hcd : c.val < d.length := by rw [hd]; exact c.isLt
    have hgetD : d.getD c.val none = d[c.val] := by
      rw [List.getD_eq_getElem?_getD, List.getElem?_eq_getElem hcd]
      rfl
    cases hcase : d.getD c.val none with
    | none =>
      have hentry : d[c.val]? = some none := by
        rw [List.getElem?_eq_getElem hcd, ← hgetD, hcase]
      simp [encodeLoop, hentry]
    | some w =>
      have hentry : d[c.val]? = some (some w) := by
        rw [List.getElem?_eq_getElem hcd, ← hgetD, hcase]
      simp only [encodeLoop, hentry]
      obtain ⟨c', hc', hnone⟩ := hex
      rcases List.mem_cons.1 hc' with rfl | hc't
      · rw [hcase] at hnone
        cases hnone
      · exact ih (out ++ w) ⟨c', hc't, hnone⟩

/-! ## Dictionary entries of the pipeline dictionary -/

/-- For an internal root with distinct leaf symbols, the derived dictionary
maps each symbol recorded in `codes` to its codeword. -/
theorem dict_entry_some {f : Nat} {l r : HuffmanNode}
    (hnodup : (syms (HuffmanNode.mk none f (some l) (some r))).Nodup)
    {c : Symbol} {w : List Bool}
    (hmem : (c, w) ∈ codes (HuffmanNode.mk none f (some l) (some r)) []) :
    (construct_dict (some (HuffmanNode.mk none f (some l) (some r))) none none).getD
      c.val none = some w := by
  rw [construct_dict_top]
  exact foldl_dictStep_getD_mem _ _ c w (by simp [ASCII_MAX]) hmem hnodup

/-- Symbols not in the tree keep a `none` entry. -/
theorem dict_entry_none {f : Nat} {l r : HuffmanNode} {c : Symbol}
    (hnot : c ∉ syms (HuffmanNode.mk none f (some l) (some r))) :
    (construct_dict (some (HuffmanNode.mk none f (some l) (some r))) none none).getD
      c.val none = none := by
  rw [construct_dict_top]
  rw [foldl_dictStep_getD_not_mem _ _ c (fun cw hw hcw => hnot (by
    rw [← hcw]
    exact List.mem_map_of_mem Prod.fst hw))]
  rw [List.getD_eq_getElem?_getD, List.getElem?_replicate]
  simp [ASCII_MAX, c.isLt]

/-- The derived dictionary always has `ASCII_MAX` entries. -/
theorem dict_length {f : Nat} {l r : HuffmanNode} :
    (construct_dict (some (HuffmanNode.mk none f (some l) (some r))) none none).length
      = 256 := by
  rw [construct_dict_top, foldl_dictStep_length]
  simp [ASCII_MAX]

/-! ## Round trip -/

/-- Round trip through the whole pipeline for an input with at least two
distinct symbols: the tree builds, encoding succeeds, and decoding the
encoded bits against the tree returns the input. -/
theorem roundtrip {s : List Symbol} {a b : Symbol}
    (ha : a ∈ s) (hb : b ∈ s) (hab : a ≠ b) :
    ∃ root bits,
      construct_huffman_tree (construct_frequency_table s) = .ok root ∧
      encode s (construct_dict (some root) none none) = .ok bits ∧
      decode bits root = .ok s := by
  obtain ⟨root, hok, hwf, hval, hperm⟩ := tree_spec ha hb hab
  obtain ⟨f, l, r, rfl⟩ : ∃ f l r, root = HuffmanNode.mk none f (some l) (some r) := by
    cases hwf with
    | leaf c0 f0 => simp [HuffmanNode.value] at hval
    | node f0 hl hr => exact ⟨f0, _, _, rfl⟩
  have hnodup : (syms (HuffmanNode.mk none f (some l) (some r))).Nodup :=
    hperm.nodup (distinctSyms_nodup s)
  set root := HuffmanNode.mk none f (some l) (some r) with hrootdef
  set dict := construct_dict (some root) none none with hdictdef
  have hdlen : dict.length = 256 := dict_length
  have hentry : ∀ c ∈ s, ∃ w, dict.getD c.val none = some w ∧ (c, w) ∈ codes root [] := by
    intro c hc
    have hcsyms : c ∈ syms root := hperm.subset (mem_distinctSyms.2 hc)
    obtain ⟨w, hw⟩ := mem_syms_iff.1 hcsyms
    exact ⟨w, dict_entry_some hnodup hw, hw⟩
  have hsome : ∀ c ∈ s, (dict.getD c.val none).isSome := by
    intro c hc
    obtain ⟨w, hw, _⟩ := hentry c hc
    rw [hw]
    rfl
  have henc := encode_ok dict hdlen s hsome
  refine ⟨root, s.flatMap (fun c => (dict.getD c.val none).getD []), hok, henc, ?_⟩
  rw [decode]
  have hg : ∀ c ∈ s, (c, (dict.getD c.val none).getD []) ∈ codes root [] := by
    intro c hc
    obtain ⟨w, hw, hmem⟩ := hentry c hc
    rw [hw]
    exact hmem
  rw [decodeGo_flatMap root hwf rfl _ s [] hg]
  rfl


/-! ## Prefix-freeness of `codes` -/

/-- In a well-formed tree no recorded codeword is a strict front segment of
another: a front-segment relation between codewords forces equality. -/
theorem codes_pre {n : HuffmanNode} (hwf : Wf n) :
    ∀ p c w c' w', (c, w) ∈ codes n p → (c', w') ∈ codes n p →
      (∃ t, w ++ t = w') → w = w' := by
  induction hwf with
  | leaf c0 f0 =>
    intro p c w c' w' h1 h2 _
    rw [codes_leaf] at h1 h2
    have e1 := List.mem_singleton.1 h1
    have e2 := List.mem_singleton.1 h2
    simp only [Prod.mk.injEq] at e1 e2
    rw [e1.2, e2.2]
  | node f hl hr ihl ihr =>
    rename_i l r
    intro p c w c' w' h1 h2 hpre
    rw [codes_node] at h1 h2
    rcases List.mem_append.1 h1 with h1 | h1 <;> rcases List.mem_append.1 h2 with h2 | h2
    · exact ihl (p ++ [false]) c w c' w' h1 h2 hpre
    · exfalso
      obtain ⟨w1, rfl, _⟩ := codes_shift_mem h1
      obtain ⟨w1', rfl, _⟩ := codes_shift_mem h2
      obtain ⟨t, ht⟩ := hpre
      have hcan : p ++ (false :: (w1 ++ t)) = p ++ (true :: w1') := by
        simpa [List.append_assoc] using ht
      have := List.append_cancel_left hcan
      simp at this
    · exfalso
      obtain ⟨w1, rfl, _⟩ := codes_shift_mem h1
      obtain ⟨w1', rfl, _⟩ := codes_shift_mem h2
      obtain ⟨t, ht⟩ := hpre
      have hcan : p ++ (true :: (w1 ++ t)) = p ++ (false :: w1') := by
        simpa [List.append_assoc] using ht
      have := List.append_cancel_left hcan
      simp at this
    · exact ihr (p ++ [true]) c w c' w' h1 h2 hpre

/-- In a well-formed tree a codeword determines its symbol. -/
theorem codes_inj {n : HuffmanNode} (hwf : Wf n) :
    ∀ p c w c', (c, w) ∈ codes n p → (c', w) ∈ codes n p → c = c' := by
  induction hwf with
  | leaf c0 f0 =>
    intro p c w c' h1 h2
    have e1 := List.mem_singleton.1 h1
    have e2 := List.mem_singleton.1 h2
    simp only [codes_leaf, Prod.mk.injEq] at e1 e2
    rw [e1.1, e2.1]
  | node f hl hr ihl ihr =>
    rename_i l r
    intro p c w c' h1 h2
    rw [codes_node] at h1 h2
    rcases List.mem_append.1 h1 with h1 | h1 <;> rcases List.mem_append.1 h2 with h2 | h2
    · exact ihl (p ++ [false]) c w c' h1 h2
    · exfalso
      obtain ⟨w1, hw1, _⟩ := codes_shift_mem h1
      obtain ⟨w1', hw1', _⟩ := codes_shift_mem h2
      rw [hw1] at hw1'
      have hcan : p ++ (false :: w1) = p ++ (true :: w1') := by
        simpa [List.append_assoc] using hw1'
      have := List.append_cancel_left hcan
      simp at this
    · exfalso
      obtain ⟨w1, hw1, _⟩ := codes_shift_mem h1
      obtain ⟨w1', hw1', _⟩ := codes_shift_mem h2
      rw [hw1] at hw1'
      have hcan : p ++ (true :: w1) = p ++ (false :: w1') := by
        simpa [List.append_assoc] using hw1'
      have := List.append_cancel_left hcan
      simp at this
    · exact ihr (p ++ [true]) c w c' h1 h2

/-! ## Trees built from arbitrary leaf tables -/

/-- For any frequency table whose entries are leaves with pairwise distinct
symbols (the shape the spec gives a frequency table), a successful build
returns a well-formed internal root with distinct leaf symbols, and every
table symbol reaches the tree. -/
theorem tree_spec_table {ft : List (Option HuffmanNode)}
    (hleaf : ∀ n ∈ ft.filterMap id, ∃ c fr, n = HuffmanNode.mk (some c) fr none none)
    (hnodup : ((ft.filterMap id).flatMap syms).Nodup)
    {root : HuffmanNode} (hok : construct_huffman_tree ft = .ok root) :
    Wf root ∧ root.value = none ∧ (syms root).Nodup := by
  rw [construct_huffman_tree] at hok
  set leaves := ft.filterMap id with hleavesdef
  set queue := leaves.mergeSort (fun a b => Nat.ble a.freq b.freq) with hqueuedef
  have hqperm : queue.Perm leaves := List.mergeSort_perm leaves _
  have hwfall : ∀ x ∈ queue ++ [], Wf x := by
    intro x hx
    simp only [List.append_nil] at hx
    obtain ⟨c, fr, rfl⟩ := hleaf x (hqperm.subset hx)
    exact Wf.leaf c fr
  have hinv := buildLoop_invariant queue.length queue [] root (by simp) hok hwfall
    (by simp)
  refine ⟨hinv.1, hinv.2.2, ?_⟩
  have hfin : ((queue ++ []).flatMap syms).Perm (syms root) := hinv.2.1
  rw [List.append_nil] at hfin
  have hq1 : (queue.flatMap syms).Perm (leaves.flatMap syms) := hqperm.flatMap_right syms
  exact (hq1.symm.trans hfin).nodup hnodup

/-- Inversion of the dictionary entries: a `some` entry comes from `codes`. -/
theorem dict_entry_inv {f : Nat} {l r : HuffmanNode}
    (hnodup : (syms (HuffmanNode.mk none f (some l) (some r))).Nodup)
    {c : Symbol} {w : List Bool}
    (h : (construct_dict (some (HuffmanNode.mk none f (some l) (some r))) none none).getD
      c.val none = some w) :
    (c, w) ∈ codes (HuffmanNode.mk none f (some l) (some r)) [] := by
  by_cases hc : c ∈ syms (HuffmanNode.mk none f (some l) (some r))
  · obtain ⟨w0, hw0⟩ := mem_syms_iff.1 hc
    have hsome := dict_entry_some hnodup hw0
    rw [h] at hsome
    have : w = w0 := Option.some.inj hsome
    rw [this]
    exact hw0
  · rw [dict_entry_none hc] at h
    cases h


/-! ## Sortedness of the pending lists (the two-minimum selection) -/

/-- Every element of a `freq`-sorted list weighs at most its last. -/
theorem sorted_le_getLast {l : List HuffmanNode} (hs : sortedByFreq l)
    {x y : HuffmanNode} (hx : x ∈ l) (hy : l.getLast? = some y) :
    x.freq ≤ y.freq := by
  induction l with
  | nil => cases hx
  | cons a t ih =>
    cases t with
    | nil =>
      rcases List.mem_singleton.1 hx with rfl
      have hxy : x = y := by simpa using hy
      rw [hxy]
    | cons b t2 =>
      rw [List.getLast?_cons_cons] at hy
      have hs' : sortedByFreq (b :: t2) := (List.pairwise_cons.1 hs).2
      rcases List.mem_cons.1 hx with rfl | hx'
      · have hymem : y ∈ b :: t2 := by
          rcases List.mem_getLast?_eq_getLast hy with ⟨hne, hy2⟩
          rw [hy2]
          exact List.getLast_mem hne
        exact (List.pairwise_cons.1 hs).1 y hymem
      · exact ih hs' hx' hy

/-- The builder invariant holds at entry to the loop: the queue is the
stable sort of the leaves, the `node_queue` is empty, and the lower bound
is `0`. -/
theorem builderInv_init (l : List HuffmanNode) :
    BuilderInv (l.mergeSort (fun a b => Nat.ble a.freq b.freq)) [] 0 := by
  refine ⟨?_, List.Pairwise.nil, fun x _ => Nat.zero_le _, fun y hy => by simp at hy⟩
  have hs : (l.mergeSort (fun a b => Nat.ble a.freq b.freq)).Pairwise
      (fun a b => Nat.ble a.freq b.freq) :=
    List.sorted_mergeSort
      (fun a b c hab hbc => by
        simp only [Nat.ble_eq] at hab hbc ⊢
        omega)
      (fun a b => by
        rcases Nat.le_total a.freq b.freq with h | h <;> simp [Nat.ble_eq, h])
      l
  exact hs.imp (fun h => by simpa [Nat.ble_eq] using h)

/-- One full round of the merge loop under the builder invariant: the two
removed nodes are of minimal weight among all pending nodes (first the
global minimum, then the minimum of the rest), a tie between the heads of
`queue` and `node_queue` goes to `queue` (whose nodes were inserted
first), the loop recurses on the merged internal node
`(None, first.freq + second.freq, first, second)`, and the invariant is
re-established for the next round. -/
theorem builder_round {q nq : List HuffmanNode} {lb : Nat}
    (hinv : BuilderInv q nq lb) (h2 : 2 ≤ q.length + nq.length) :
    ∃ first q1 n1 second q2 n2,
      popmin q nq = .ok (first, q1, n1) ∧
      popmin q1 n1 = .ok (second, q2, n2) ∧
      (∀ x ∈ q ++ nq, first.freq ≤ x.freq) ∧
      (∀ x ∈ q1 ++ n1, second.freq ≤ x.freq) ∧
      first.freq ≤ second.freq ∧
      (∀ (hq : q ≠ []) (hn : nq ≠ []),
        (q.head hq).freq ≤ (nq.head hn).freq → first = q.head hq) ∧
      buildLoop q nq = buildLoop q2
        (n2 ++ [HuffmanNode.mk none (first.freq + second.freq) (some first) (some second)]) ∧
      BuilderInv q2
        (n2 ++ [HuffmanNode.mk none (first.freq + second.freq) (some first) (some second)])
        second.freq := by
  obtain ⟨hsq, hsn, hlb, hlast⟩ := hinv
  have hne1 : q ++ nq ≠ [] := by
    intro hc
    have hlc := congrArg List.length hc
    simp only [List.length_append, List.length_nil] at hlc
    omega
  obtain ⟨first, q1, n1, hp1⟩ := popmin_ok hne1
  have hlen1 := popmin_length hp1
  have hne2 : q1 ++ n1 ≠ [] := by
    intro hc
    have hlc := congrArg List.length hc
    simp only [List.length_append, List.length_nil] at hlc
    omega
  obtain ⟨second, q2, n2, hp2⟩ := popmin_ok hne2
  have hmin1 := popmin_min hsq hsn hp1
  obtain ⟨hsq1, hsn1⟩ := popmin_sorted hsq hsn hp1
  have hmin2 := popmin_min hsq1 hsn1 hp2
  obtain ⟨hsq2, hsn2⟩ := popmin_sorted hsq1 hsn1 hp2
  have hsub1 : ∀ z ∈ q1 ++ n1, z ∈ q ++ nq := fun z hz =>
    (popmin_perm hp1).subset (List.mem_cons_of_mem _ hz)
  have hsub2 : ∀ z ∈ q2 ++ n2, z ∈ q1 ++ n1 := fun z hz =>
    (popmin_perm hp2).subset (List.mem_cons_of_mem _ hz)
  have hfirst_mem : first ∈ q ++ nq := (popmin_perm hp1).subset (List.mem_cons_self _ _)
  have hsecond_mem1 : second ∈ q1 ++ n1 := (popmin_perm hp2).subset (List.mem_cons_self _ _)
  have h12 : first.freq ≤ second.freq := hmin1 second (hsub1 second hsecond_mem1)
  have hlb1 : lb ≤ first.freq := hlb first hfirst_mem
  have hlb2 : lb ≤ second.freq := hlb second (hsub1 second hsecond_mem1)
  have hn2sub : ∀ z ∈ n2, z ∈ nq := by
    intro z hz
    have hz1 : z ∈ n1 := by
      rcases popmin_cases hp2 with ⟨rfl, rfl⟩ | ⟨hn1, rfl⟩
      · exact hz
      · rw [hn1]; exact List.mem_cons_of_mem _ hz
    rcases popmin_cases hp1 with ⟨rfl, rfl⟩ | ⟨hnq, rfl⟩
    · exact hz1
    · rw [hnq]; exact List.mem_cons_of_mem _ hz1
  refine ⟨first, q1, n1, second, q2, n2, hp1, hp2, hmin1, hmin2, h12, ?_, ?_, ?_⟩
  · intro hq hn hle
    match q, nq, hq, hn, hp1 with
    | a :: t1, b :: t2, _, _, hp1 =>
      simp only [List.head_cons] at hle ⊢
      have hnlt : ¬ b.freq < a.freq := Nat.not_lt.2 hle
      simp only [popmin, if_neg hnlt, Except.ok.injEq, Prod.mk.injEq] at hp1
      exact hp1.1.symm
  · exact buildLoop_step (by omega) hp1 hp2
  · refine ⟨hsq2, ?_, ?_, ?_⟩
    · refine List.pairwise_append.mpr ⟨hsn2, List.pairwise_singleton _ _, ?_⟩
      intro x hx y hy
      rcases List.mem_singleton.1 hy with rfl
      have hxnq : x ∈ nq := hn2sub x hx
      have hxlast : x.freq ≤ 2 * lb := by
        cases hnq : nq.getLast? with
        | none =>
          rw [List.getLast?_eq_none_iff] at hnq
          rw [hnq] at hxnq
          cases hxnq
        | some y0 =>
          exact le_trans (sorted_le_getLast hsn hxnq hnq) (hlast y0 hnq)
      show x.freq ≤ (HuffmanNode.mk none (first.freq + second.freq)
        (some first) (some second)).freq
      rw [HuffmanNode.freq_mk]
      omega
    · intro x hx
      rcases List.mem_append.1 hx with hx | hx
      · exact hmin2 x (hsub2 x (List.mem_append.2 (Or.inl hx)))
      · rcases List.mem_append.1 hx with hx | hx
        · exact hmin2 x (hsub2 x (List.mem_append.2 (Or.inr hx)))
        · rcases List.mem_singleton.1 hx with rfl
          rw [HuffmanNode.freq_mk]
          omega
    · intro y hy
      rw [List.getLast?_concat] at hy
      rcases Option.some.inj hy with rfl
      rw [HuffmanNode.freq_mk]
      omega


/-! ## Truncated trailing codewords -/

/-- Walking a strict, possibly empty front segment of a codeword from an
internal well-formed node consumes it without emitting anything and
without error: the bits run out mid-codeword and the loop just ends. -/
theorem decodeGo_mid (root : HuffmanNode) {n : HuffmanNode} (hwf : Wf n) :
    ∀ c w p t out, n.value = none → (c, w) ∈ codes n [] → p ++ t = w → t ≠ [] →
      decodeGo root p n out = .ok out := by
  induction hwf with
  | leaf c0 f0 =>
    intro c w p t out hval _ _ _
    simp [HuffmanNode.value] at hval
  | node f hl hr ihl ihr =>
    rename_i l r
    intro c w p t out _ hmem hpt ht
    cases p with
    | nil => rfl
    | cons bit p2 =>
      rw [codes_node] at hmem
      rcases List.mem_append.1 hmem with hmem | hmem
      · obtain ⟨w1, rfl, hmem1⟩ := codes_shift_mem hmem
        have hpt' : bit :: (p2 ++ t) = false :: w1 := by simpa using hpt
        injection hpt' with hbit hp2
        subst hbit
        rw [decodeGo.eq_def]
        simp only [if_false, Bool.false_eq_true, HuffmanNode.left]
        cases hl with
        | leaf c1 f1 =>
          rw [codes_leaf] at hmem1
          have heq2 := List.mem_singleton.1 hmem1
          simp only [Prod.mk.injEq] at heq2
          obtain ⟨_, hww⟩ := heq2
          rw [hww] at hp2
          exact absurd (List.append_eq_nil.1 hp2).2 ht
        | node f1 hl1 hr1 =>
          simp only [HuffmanNode.value]
          exact ihl c w1 p2 t out rfl hmem1 hp2 ht
      · obtain ⟨w1, rfl, hmem1⟩ := codes_shift_mem hmem
        have hpt' : bit :: (p2 ++ t) = true :: w1 := by simpa using hpt
        injection hpt' with hbit hp2
        subst hbit
        rw [decodeGo.eq_def]
        simp only [if_true, HuffmanNode.right]
        cases hr with
        | leaf c1 f1 =>
          rw [codes_leaf] at hmem1
          have heq2 := List.mem_singleton.1 hmem1
          simp only [Prod.mk.injEq] at heq2
          obtain ⟨_, hww⟩ := heq2
          rw [hww] at hp2
          exact absurd (List.append_eq_nil.1 hp2).2 ht
        | node f1 hl1 hr1 =>
          simp only [HuffmanNode.value]
          exact ihr c w1 p2 t out rfl hmem1 hp2 ht

/-- Decoding symbols' codewords followed by arbitrary remaining bits:
the symbols are emitted, then decoding continues on the rest from the
root. -/
theorem decodeGo_flatMap_append (root : HuffmanNode) (hwf : Wf root)
    (hval : root.value = none) (g : Symbol → List Bool) :
    ∀ (S : List Symbol) (rest : List Bool) (out : List Symbol),
      (∀ c ∈ S, (c, g c) ∈ codes root []) →
      decodeGo root (S.flatMap g ++ rest) root out =
        decodeGo root rest root (out ++ S) := by
  intro S
  induction S with
  | nil =>
    intro rest out _
    simp
  | cons c t ih =>
    intro rest out hall
    rw [List.flatMap_cons, List.append_assoc]
    rw [decodeGo_walk root hwf c (g c) (t.flatMap g ++ rest) out hval (hall c (by simp))]
    rw [ih rest (out ++ [c]) (fun c2 hc2 => hall c2 (List.mem_cons_of_mem _ hc2))]
    simp

/-! ## Driving the tree builder on concrete inputs -/

/-- When the filtered frequency table is already sorted by weight, the
tree builder is the merge loop on it directly. -/
theorem ctree_concrete {ft : List (Option HuffmanNode)} {L : List HuffmanNode}
    (hL : ft.filterMap id = L)
    (hs : L.Pairwise (fun a b => Nat.ble a.freq b.freq)) :
    construct_huffman_tree ft = buildLoop L [] := by
  rw [construct_huffman_tree, hL, List.mergeSort_of_sorted hs]


/-! ## Greedy two-minimum merge cost -/

/-- One pass of the greedy merge cost on an already sorted weight list:
take the two smallest weights, pay their sum, and continue on the re-sorted
list with the merged weight. -/
def hCostSorted : List Nat → Nat
  | [] => 0
  | [_] => 0
  | a :: b :: rest =>
    a + b + hCostSorted (((a + b) :: rest).mergeSort (fun x y => Nat.ble x y))
termination_by l => l.length
decreasing_by
  simp only [List.length_mergeSort, List.length_cons]
  omega

/-- The total merge cost of Huffman's greedy procedure on a weight list. -/
def hCost (l : List Nat) : Nat :=
  hCostSorted (l.mergeSort (fun x y => Nat.ble x y))

theorem hCostSorted_nil : hCostSorted [] = 0 := by
  rw [hCostSorted.eq_def]

theorem hCostSorted_single (a : Nat) : hCostSorted [a] = 0 := by
  rw [hCostSorted.eq_def]

theorem hCostSorted_cons2 (a b : Nat) (rest : List Nat) :
    hCostSorted (a :: b :: rest) =
      a + b + hCostSorted (((a + b) :: rest).mergeSort (fun x y => Nat.ble x y)) := by
  rw [hCostSorted.eq_def]

/-- The sort used throughout is sorted for `≤`. -/
theorem natSorted_mergeSort (l : List Nat) :
    (l.mergeSort (fun x y => Nat.ble x y)).Pairwise (fun x y => x ≤ y) := by
  have hs : (l.mergeSort (fun x y => Nat.ble x y)).Pairwise
      (fun x y => Nat.ble x y) :=
    List.sorted_mergeSort
      (fun a b c hab hbc => by
        simp only [Nat.ble_eq] at hab hbc ⊢
        omega)
      (fun a b => by
        rcases Nat.le_total a b with h | h <;> simp [Nat.ble_eq, h])
      l
  exact hs.imp (fun h => by simpa [Nat.ble_eq] using h)

/-- Sorting is a function of the multiset of weights. -/
theorem mergeSort_eq_of_perm {l l' : List Nat} (h : l.Perm l') :
    l.mergeSort (fun x y => Nat.ble x y) = l'.mergeSort (fun x y => Nat.ble x y) := by
  apply List.eq_of_perm_of_sorted (r := fun x y => x ≤ y)
  · exact (List.mergeSort_perm l _).trans (h.trans (List.mergeSort_perm l' _).symm)
  · exact natSorted_mergeSort l
  · exact natSorted_mergeSort l'

/-- The greedy cost is a function of the multiset of weights. -/
theorem hCost_perm {l l' : List Nat} (h : l.Perm l') : hCost l = hCost l' := by
  rw [hCost, hCost, mergeSort_eq_of_perm h]

theorem hCost_nil : hCost [] = 0 := by
  rw [hCost, List.mergeSort_nil, hCostSorted_nil]

theorem hCost_single (a : Nat) : hCost [a] = 0 := by
  rw [hCost, List.mergeSort_singleton, hCostSorted_single]

/-- The sorted form of a list whose two smallest elements are known. -/
theorem sorted_two_min {l : List Nat} {a b : Nat} {T : List Nat}
    (hperm : l.Perm (a :: b :: T)) (hab : a ≤ b) (hT : ∀ x ∈ T, b ≤ x) :
    l.mergeSort (fun x y => Nat.ble x y) =
      a :: b :: T.mergeSort (fun x y => Nat.ble x y) := by
  apply List.eq_of_perm_of_sorted (r := fun x y => x ≤ y)
  · refine (List.mergeSort_perm l _).trans (hperm.trans ?_)
    exact (List.Perm.cons a (List.Perm.cons b (List.mergeSort_perm T _).symm))
  · exact natSorted_mergeSort l
  · have hTs : ∀ x ∈ T.mergeSort (fun x y => Nat.ble x y), b ≤ x := by
      intro x hx
      exact hT x ((List.mergeSort_perm T _).subset hx)
    refine List.pairwise_cons.2 ⟨?_, List.pairwise_cons.2 ⟨hTs, natSorted_mergeSort T⟩⟩
    intro x hx
    rcases List.mem_cons.1 hx with rfl | hx
    · exact hab
    · exact le_trans hab (hTs x hx)

/-- Unfolding the greedy cost at a list whose two smallest elements are
`a` and `b`: it pays `a + b` and continues with the merged weight. -/
theorem hCost_two_min {l : List Nat} {a b : Nat} {T : List Nat}
    (hperm : l.Perm (a :: b :: T)) (hab : a ≤ b) (hT : ∀ x ∈ T, b ≤ x) :
    hCost l = a + b + hCost ((a + b) :: T) := by
  rw [hCost, sorted_two_min hperm hab hT, hCostSorted_cons2, hCost]
  congr 1
  exact congrArg hCostSorted
    (mergeSort_eq_of_perm (List.Perm.cons _ (List.mergeSort_perm T _)))

/-! ## The Kraft inequality -/

/-- Scaled Kraft sum: a codeword of length `bl` occupies `2 ^ (B - bl)` of
the `2 ^ B` bit strings of length `B`. -/
def kraftSum (B : Nat) (ls : List Nat) : Nat :=
  (ls.map (fun bl => 2 ^ (B - bl))).sum

/-- The largest entry of a length list. -/
def maxL (ls : List Nat) : Nat := ls.foldr max 0

/-- Kraft-admissible length lists: the scaled Kraft sum at the largest
length stays within budget. -/
def KraftOK (ls : List Nat) : Prop :=
  kraftSum (maxL ls) ls ≤ 2 ^ maxL ls

theorem le_maxL {ls : List Nat} : ∀ bl ∈ ls, bl ≤ maxL ls := by
  induction ls with
  | nil => intro bl h; cases h
  | cons a t ih =>
    intro bl h
    rcases List.mem_cons.1 h with rfl | h
    · exact Nat.le_max_left _ _
    · exact le_trans (ih bl h) (Nat.le_max_right _ _)

theorem maxL_le {ls : List Nat} {B : Nat} (h : ∀ bl ∈ ls, bl ≤ B) :
    maxL ls ≤ B := by
  induction ls with
  | nil => exact Nat.zero_le _
  | cons a t ih =>
    have ha := h a (List.mem_cons_self _ _)
    have ht := ih (fun bl hb => h bl (List.mem_cons_of_mem _ hb))
    simp only [maxL, List.foldr_cons]
    exact Nat.max_le.2 ⟨ha, ht⟩

/-- Raising the budget by one doubles the Kraft sum, as long as the budget
covers every length. -/
theorem kraftSum_succ {ls : List Nat} {B : Nat} (h : ∀ bl ∈ ls, bl ≤ B) :
    kraftSum (B + 1) ls = 2 * kraftSum B ls := by
  induction ls with
  | nil => rfl
  | cons a t ih =>
    have ha := h a (List.mem_cons_self _ _)
    have ht := ih (fun bl hb => h bl (List.mem_cons_of_mem _ hb))
    simp only [kraftSum, List.map_cons, List.sum_cons] at ht ⊢
    rw [ht]
    rw [(by omega : B + 1 - a = (B - a) + 1), pow_succ]
    ring

theorem kraftSum_shift {ls : List Nat} {B : Nat} (h : ∀ bl ∈ ls, bl ≤ B)
    (k : Nat) : kraftSum (B + k) ls = 2 ^ k * kraftSum B ls := by
  induction k with
  | zero => simp
  | succ k ih =>
    have hk : ∀ bl ∈ ls, bl ≤ B + k := fun bl hb => le_trans (h bl hb) (by omega)
    calc kraftSum (B + (k + 1)) ls
        = kraftSum ((B + k) + 1) ls := by rw [Nat.add_assoc]
      _ = 2 * kraftSum (B + k) ls := kraftSum_succ hk
      _ = 2 * (2 ^ k * kraftSum B ls) := by rw [ih]
      _ = 2 ^ (k + 1) * kraftSum B ls := by ring

/-- A Kraft-admissible list meets the budget at every large enough `B`. -/
theorem kraftOK_at {ls : List Nat} (h : KraftOK ls) {B : Nat}
    (hB : ∀ bl ∈ ls, bl ≤ B) : kraftSum B ls ≤ 2 ^ B := by
  have hm : maxL ls ≤ B := maxL_le hB
  obtain ⟨k, rfl⟩ := Nat.exists_eq_add_of_le hm
  rw [kraftSum_shift le_maxL k]
  calc 2 ^ k * kraftSum (maxL ls) ls ≤ 2 ^ k * 2 ^ maxL ls :=
        Nat.mul_le_mul_left _ h
    _ = 2 ^ (maxL ls + k) := by rw [pow_add]; ring

/-- Conversely, meeting the budget at any valid `B` makes the list
Kraft-admissible. -/
theorem kraftOK_of_bound {ls : List Nat} {B : Nat}
    (hB : ∀ bl ∈ ls, bl ≤ B) (h : kraftSum B ls ≤ 2 ^ B) : KraftOK ls := by
  have hm : maxL ls ≤ B := maxL_le hB
  obtain ⟨k, rfl⟩ := Nat.exists_eq_add_of_le hm
  rw [kraftSum_shift le_maxL k] at h
  have h2 : 2 ^ k * kraftSum (maxL ls) ls ≤ 2 ^ k * 2 ^ maxL ls := by
    calc 2 ^ k * kraftSum (maxL ls) ls ≤ 2 ^ (maxL ls + k) := h
      _ = 2 ^ k * 2 ^ maxL ls := by rw [pow_add]; ring
  exact Nat.le_of_mul_le_mul_left h2 (Nat.two_pow_pos k)

/-- Kraft-admissibility depends only on the multiset of lengths. -/
theorem kraftOK_perm {ls ls' : List Nat} (h : KraftOK ls) (hp : ls.Perm ls') :
    KraftOK ls' := by
  have hb : ∀ bl ∈ ls', bl ≤ maxL ls := fun bl hm => le_maxL bl (hp.symm.subset hm)
  apply kraftOK_of_bound hb
  have hsum : kraftSum (maxL ls) ls' = kraftSum (maxL ls) ls :=
    (hp.symm.map (fun bl => 2 ^ (maxL ls - bl))).sum_eq
  rw [hsum]
  exact kraftOK_at h le_maxL

/-- A Kraft sum over a non-empty list is at least `1`. -/
theorem kraftSum_pos {ls : List Nat} (h : ls ≠ []) (B : Nat) :
    1 ≤ kraftSum B ls := by
  match ls, h with
  | a :: t, _ =>
    have h1 : 0 < 2 ^ (B - a) := Nat.two_pow_pos _
    simp only [kraftSum, List.map_cons, List.sum_cons]
    omega

/-- With at least two codewords, every Kraft-admissible length is
positive (a zero-length codeword would use the whole budget). -/
theorem kraftOK_lengths_pos {ls : List Nat} (h : KraftOK ls)
    (h2 : 2 ≤ ls.length) : ∀ bl ∈ ls, 1 ≤ bl := by
  intro bl hbl
  by_contra hc
  have hbl0 : bl = 0 := by omega
  subst hbl0
  have hperm : ls.Perm (0 :: ls.erase 0) := List.perm_cons_erase hbl
  have hlen : (ls.erase 0).length = ls.length - 1 := List.length_erase_of_mem hbl
  have hne : ls.erase 0 ≠ [] := by
    intro hceq
    have := congrArg List.length hceq
    simp only [List.length_nil] at this
    omega
  have hsum : kraftSum (maxL ls) ls = kraftSum (maxL ls) (0 :: ls.erase 0) :=
    (hperm.map (fun bl => 2 ^ (maxL ls - bl))).sum_eq
  have htail := kraftSum_pos hne (maxL ls)
  have hbound := kraftOK_at h (B := maxL ls) le_maxL
  rw [hsum] at hbound
  simp only [kraftSum, List.map_cons, List.sum_cons, Nat.sub_zero] at hbound htail
  omega

/-- Strip a leading `False` bit. -/
def stripZero : List Bool → Option (List Bool)
  | false :: t => some t
  | _ => none

/-- Strip a leading `True` bit. -/
def stripOne : List Bool → Option (List Bool)
  | true :: t => some t
  | _ => none

theorem stripZero_eq {w w' : List Bool} : stripZero w = some w' ↔ w = false :: w' := by
  match w with
  | [] => simp [stripZero]
  | true :: t => simp [stripZero]
  | false :: t => simp [stripZero, eq_comm]

theorem stripOne_eq {w w' : List Bool} : stripOne w = some w' ↔ w = true :: w' := by
  match w with
  | [] => simp [stripOne]
  | false :: t => simp [stripOne]
  | true :: t => simp [stripOne, eq_comm]

/-- Splitting a Kraft sum by leading bit. -/
theorem kraftSum_split {l : List (List Bool)} (hne : ∀ w ∈ l, w ≠ []) (B : Nat) :
    kraftSum (B + 1) (l.map List.length) =
      kraftSum B ((l.filterMap stripZero).map List.length) +
      kraftSum B ((l.filterMap stripOne).map List.length) := by
  induction l with
  | nil => rfl
  | cons w r ih =>
    have hw := hne w (List.mem_cons_self _ _)
    have hr := ih (fun x hx => hne x (List.mem_cons_of_mem _ hx))
    match w, hw with
    | [], hw => exact absurd rfl hw
    | false :: t2, _ =>
      simp only [List.map_cons, List.filterMap_cons, stripZero, stripOne,
        List.length_cons, kraftSum, List.sum_cons] at hr ⊢
      rw [(by omega : B + 1 - (t2.length + 1) = B - t2.length)]
      omega
    | true :: t2, _ =>
      simp only [List.map_cons, List.filterMap_cons, stripZero, stripOne,
        List.length_cons, kraftSum, List.sum_cons] at hr ⊢
      rw [(by omega : B + 1 - (t2.length + 1) = B - t2.length)]
      omega

/-- The Kraft inequality: a pairwise prefix-free list of codewords, each
of length at most `B`, occupies at most the `2 ^ B` available slots of
length-`B` extensions. -/
theorem kraft_of_pairwise :
    ∀ (B : Nat) (ws : List (List Bool)),
      (∀ w ∈ ws, w.length ≤ B) →
      ws.Pairwise (fun u v => ¬ isCodePre u v ∧ ¬ isCodePre v u) →
      kraftSum B (ws.map List.length) ≤ 2 ^ B := by
  intro B
  induction B with
  | zero =>
    intro ws hlen hpf
    match ws with
    | [] => simp [kraftSum]
    | [w] =>
      have hw : w.length = 0 := Nat.le_zero.1 (hlen w (by simp))
      simp [kraftSum, hw]
    | u :: v :: t =>
      exfalso
      have hu : u = [] := List.length_eq_zero.1 (Nat.le_zero.1 (hlen u (by simp)))
      have hv : v = [] := List.length_eq_zero.1 (Nat.le_zero.1 (hlen v (by simp)))
      have hr := (List.pairwise_cons.1 hpf).1 v (List.mem_cons_self _ _)
      exact hr.1 ⟨[], by rw [hu, hv]; rfl⟩
  | succ B ih =>
    intro ws hlen hpf
    match ws with
    | [] => simp [kraftSum]
    | [w] =>
      simp only [kraftSum, List.map_cons, List.map_nil, List.sum_cons, List.sum_nil,
        Nat.add_zero]
      exact Nat.pow_le_pow_right (by norm_num) (by omega)
    | u :: v :: t =>
      have hnonempty : ∀ w ∈ u :: v :: t, w ≠ [] := by
        intro w hw hweq
        subst hweq
        rcases List.mem_cons.1 hw with rfl | hw2
        · have hr := (List.pairwise_cons.1 hpf).1 v (List.mem_cons_self _ _)
          exact hr.1 ⟨v, by simp⟩
        · have hr := (List.pairwise_cons.1 hpf).1 [] hw2
          exact hr.2 ⟨u, by simp⟩
      have hpair0 : ((u :: v :: t).filterMap stripZero).Pairwise
          (fun x y => ¬ isCodePre x y ∧ ¬ isCodePre y x) := by
        refine hpf.filterMap stripZero ?_
        intro x y hxy x' hx' y' hy'
        rw [Option.mem_def, stripZero_eq] at hx'
        rw [Option.mem_def, stripZero_eq] at hy'
        subst hx'; subst hy'
        constructor
        · intro hpre
          obtain ⟨s, hs⟩ := hpre
          exact hxy.1 ⟨s, by rw [List.cons_append, hs]⟩
        · intro hpre
          obtain ⟨s, hs⟩ := hpre
          exact hxy.2 ⟨s, by rw [List.cons_append, hs]⟩
      have hpair1 : ((u :: v :: t).filterMap stripOne).Pairwise
          (fun x y => ¬ isCodePre x y ∧ ¬ isCodePre y x) := by
        refine hpf.filterMap stripOne ?_
        intro x y hxy x' hx' y' hy'
        rw [Option.mem_def, stripOne_eq] at hx'
        rw [Option.mem_def, stripOne_eq] at hy'
        subst hx'; subst hy'
        constructor
        · intro hpre
          obtain ⟨s, hs⟩ := hpre
          exact hxy.1 ⟨s, by rw [List.cons_append, hs]⟩
        · intro hpre
          obtain ⟨s, hs⟩ := hpre
          exact hxy.2 ⟨s, by rw [List.cons_append, hs]⟩
      have hlen0 : ∀ w ∈ (u :: v :: t).filterMap stripZero, w.length ≤ B := by
        intro w hw
        obtain ⟨w0, hw0, hmap⟩ := List.mem_filterMap.1 hw
        rw [stripZero_eq] at hmap
        subst hmap
        have := hlen (false :: w) hw0
        simp only [List.length_cons] at this
        omega
      have hlen1 : ∀ w ∈ (u :: v :: t).filterMap stripOne, w.length ≤ B := by
        intro w hw
        obtain ⟨w0, hw0, hmap⟩ := List.mem_filterMap.1 hw
        rw [stripOne_eq] at hmap
        subst hmap
        have := hlen (true :: w) hw0
        simp only [List.length_cons] at this
        omega
      rw [kraftSum_split hnonempty B]
      have h0 := ih ((u :: v :: t).filterMap stripZero) hlen0 hpair0
      have h1 := ih ((u :: v :: t).filterMap stripOne) hlen1 hpair1
      have hpow : 2 ^ (B + 1) = 2 ^ B + 2 ^ B := by
        rw [pow_succ]
        omega
      omega

/-! ## Optimality among Kraft-admissible length assignments -/

/-- The cost of a weight/length pairing. -/
def pairCost (Q : List (Nat × Nat)) : Nat :=
  (Q.map (fun p => p.1 * p.2)).sum

/-- The cost of aligned weight and length lists. -/
def zipCost (ws ls : List Nat) : Nat :=
  (List.zipWith (fun w bl => w * bl) ws ls).sum

theorem zipCost_eq_pairCost (ws : List Nat) :
    ∀ ls, zipCost ws ls = pairCost (ws.zip ls) := by
  induction ws with
  | nil => intro ls; rfl
  | cons w t ih =>
    intro ls
    cases ls with
    | nil => rfl
    | cons bl r =>
      have hr := ih r
      simp only [zipCost, pairCost] at hr ⊢
      simp only [List.zipWith_cons_cons, List.zip_cons_cons, List.map_cons,
        List.sum_cons, hr]

theorem pairCost_perm {Q Q2 : List (Nat × Nat)} (h : Q.Perm Q2) :
    pairCost Q = pairCost Q2 := by
  rw [pairCost, pairCost]
  exact (h.map (fun p : Nat × Nat => p.1 * p.2)).sum_eq

theorem exists_min_fst (Q : List (Nat × Nat)) (h : Q ≠ []) :
    ∃ p ∈ Q, ∀ q ∈ Q, p.1 ≤ q.1 := by
  induction Q with
  | nil => exact absurd rfl h
  | cons x t ih =>
    cases t with
    | nil =>
      refine ⟨x, by simp, ?_⟩
      intro q hq
      rcases List.mem_singleton.1 hq with rfl
      exact le_refl _
    | cons y u =>
      obtain ⟨p, hpm, hpmin⟩ := ih (by simp)
      by_cases hc : x.1 ≤ p.1
      · refine ⟨x, List.mem_cons_self _ _, ?_⟩
        intro q hq
        rcases List.mem_cons.1 hq with rfl | hq
        · exact le_refl _
        · exact le_trans hc (hpmin q hq)
      · refine ⟨p, List.mem_cons_of_mem _ hpm, ?_⟩
        intro q hq
        rcases List.mem_cons.1 hq with rfl | hq
        · exact le_of_lt (Nat.lt_of_not_le hc)
        · exact hpmin q hq

theorem exists_max_snd (Q : List (Nat × Nat)) (h : Q ≠ []) :
    ∃ p ∈ Q, ∀ q ∈ Q, q.2 ≤ p.2 := by
  induction Q with
  | nil => exact absurd rfl h
  | cons x t ih =>
    cases t with
    | nil =>
      refine ⟨x, by simp, ?_⟩
      intro q hq
      rcases List.mem_singleton.1 hq with rfl
      exact le_refl _
    | cons y u =>
      obtain ⟨p, hpm, hpmax⟩ := ih (by simp)
      by_cases hc : p.2 ≤ x.2
      · refine ⟨x, List.mem_cons_self _ _, ?_⟩
        intro q hq
        rcases List.mem_cons.1 hq with rfl | hq
        · exact le_refl _
        · exact le_trans (hpmax q hq) hc
      · refine ⟨p, List.mem_cons_of_mem _ hpm, ?_⟩
        intro q hq
        rcases List.mem_cons.1 hq with rfl | hq
        · exact le_of_lt (Nat.lt_of_not_le hc)
        · exact hpmax q hq

/-- Pairing the smaller weight with the larger length never costs more. -/
theorem mul_pair_swap {a w la M : Nat} (haw : a ≤ w) (hlm : la ≤ M) :
    a * M + w * la ≤ a * la + w * M := by
  obtain ⟨d, rfl⟩ := Nat.exists_eq_add_of_le hlm
  have hd : a * d ≤ w * d := Nat.mul_le_mul_right d haw
  simp only [Nat.mul_add]
  omega

/-- Any non-empty weight/length pairing can be rearranged, at no larger
cost, with the same weight list and length multiset, so that its head
pairs a minimal weight with a maximal length. -/
theorem align_min_max (Q : List (Nat × Nat)) (h : Q ≠ []) :
    ∃ a M R,
      (((a, M) :: R).map Prod.fst).Perm (Q.map Prod.fst) ∧
      (((a, M) :: R).map Prod.snd).Perm (Q.map Prod.snd) ∧
      pairCost ((a, M) :: R) ≤ pairCost Q ∧
      (∀ q ∈ R, a ≤ q.1) ∧ (∀ q ∈ R, q.2 ≤ M) := by
  obtain ⟨pa, hpam, hpamin⟩ := exists_min_fst Q h
  obtain ⟨pM, hpMm, hpMmax⟩ := exists_max_snd Q h
  by_cases hcase : pa = pM
  · subst hcase
    obtain ⟨u1, u2, rfl⟩ := List.append_of_mem hpam
    have hperm : (u1 ++ pa :: u2).Perm (pa :: (u1 ++ u2)) := List.perm_middle
    refine ⟨pa.1, pa.2, u1 ++ u2, (hperm.map Prod.fst).symm,
      (hperm.map Prod.snd).symm, le_of_eq (pairCost_perm hperm.symm), ?_, ?_⟩
    · intro q hq
      exact hpamin q (hperm.symm.subset (List.mem_cons_of_mem _ hq))
    · intro q hq
      exact hpMmax q (hperm.symm.subset (List.mem_cons_of_mem _ hq))
  · obtain ⟨u1, u2, rfl⟩ := List.append_of_mem hpam
    have hperm1 : (u1 ++ pa :: u2).Perm (pa :: (u1 ++ u2)) := List.perm_middle
    have hpM1 : pM ∈ u1 ++ u2 := by
      have hmem2 := hperm1.subset hpMm
      rcases List.mem_cons.1 hmem2 with heq | hmem3
      · exact absurd heq.symm hcase
      · exact hmem3
    obtain ⟨v1, v2, hv⟩ := List.append_of_mem hpM1
    have hperm2 : (u1 ++ u2).Perm (pM :: (v1 ++ v2)) := by
      rw [hv]
      exact List.perm_middle
    have hQperm : (u1 ++ pa :: u2).Perm (pa :: pM :: (v1 ++ v2)) :=
      hperm1.trans (hperm2.cons pa)
    refine ⟨pa.1, pM.2, (pM.1, pa.2) :: (v1 ++ v2), ?_, ?_, ?_, ?_, ?_⟩
    · exact (hQperm.map Prod.fst).symm
    · exact (List.Perm.swap pa.2 pM.2 _).trans (hQperm.map Prod.snd).symm
    · have hswap := mul_pair_swap (hpamin pM hpMm) (hpMmax pa hpam)
      have hco : pairCost ((pa.1, pM.2) :: (pM.1, pa.2) :: (v1 ++ v2)) ≤
          pairCost (pa :: pM :: (v1 ++ v2)) := by
        simp only [pairCost, List.map_cons, List.sum_cons]
        omega
      exact hco.trans (le_of_eq (pairCost_perm hQperm.symm))
    · intro q hq
      rcases List.mem_cons.1 hq with rfl | hq
      · exact hpamin pM hpMm
      · exact hpamin q
          (hQperm.symm.subset (List.mem_cons_of_mem _ (List.mem_cons_of_mem _ hq)))
    · intro q hq
      rcases List.mem_cons.1 hq with rfl | hq
      · exact hpMmax pa hpam
      · exact hpMmax q
          (hQperm.symm.subset (List.mem_cons_of_mem _ (List.mem_cons_of_mem _ hq)))

/-- Optimality of the greedy merge cost: over positive weights, it is a
lower bound on the cost of every Kraft-admissible assignment of codeword
lengths to those weights. -/
theorem hCost_le_admissible :
    ∀ (n : Nat) (ws : List Nat), ws.length = n → (∀ w ∈ ws, 1 ≤ w) →
      ∀ (Q : List (Nat × Nat)), (Q.map Prod.fst).Perm ws →
        KraftOK (Q.map Prod.snd) →
        hCost ws ≤ pairCost Q := by
  intro n
  induction n with
  | zero =>
    intro ws hlen hpos Q hQw hQk
    have hws : ws = [] := List.length_eq_zero.1 hlen
    subst hws
    rw [hCost_nil]
    exact Nat.zero_le _
  | succ m ih =>
    intro ws hlen hpos Q hQw hQk
    cases m with
    | zero =>
      match ws, hlen with
      | [w], _ =>
        rw [hCost_single]
        exact Nat.zero_le _
    | succ m2 =>
      -- at least two weights
      set S : Set Nat := {k | ∃ Q2, ((Q2.map Prod.fst).Perm ws ∧
        KraftOK (Q2.map Prod.snd)) ∧ pairCost Q2 = k} with hS
      have hSne : S.Nonempty := ⟨pairCost Q, Q, ⟨hQw, hQk⟩, rfl⟩
      have hsinf : sInf S ∈ S := Nat.sInf_mem hSne
      obtain ⟨Q0, ⟨hQ0w, hQ0k⟩, hQ0c⟩ := hsinf
      suffices hle : hCost ws ≤ sInf S by
        exact hle.trans (Nat.sInf_le ⟨Q, ⟨hQw, hQk⟩, rfl⟩)
      have hQ0len : Q0.length = m2 + 2 := by
        have := hQ0w.length_eq
        simp only [List.length_map] at this
        omega
      have hQ0ne : Q0 ≠ [] := by
        intro hc
        rw [hc] at hQ0len
        simp at hQ0len
      obtain ⟨a, M, R1, hf1, hs1, hc1, hminf1, hmaxs1⟩ := align_min_max Q0 hQ0ne
      have hQ1w : (((a, M) :: R1).map Prod.fst).Perm ws := hf1.trans hQ0w
      have hQ1k : KraftOK (((a, M) :: R1).map Prod.snd) := kraftOK_perm hQ0k hs1.symm
      have hQ1copt : sInf S ≤ pairCost ((a, M) :: R1) :=
        Nat.sInf_le ⟨(a, M) :: R1, ⟨hQ1w, hQ1k⟩, rfl⟩
      have hQ1c : pairCost ((a, M) :: R1) = sInf S :=
        le_antisymm (hc1.trans (le_of_eq hQ0c)) hQ1copt
      have hR1len : R1.length = m2 + 1 := by
        have := hf1.length_eq
        simp only [List.length_map, List.length_cons] at this
        omega
      have hR1ne : R1 ≠ [] := by
        intro hc
        rw [hc] at hR1len
        simp at hR1len
      obtain ⟨b, M2, R2, hf2, hs2, hc2, hminf2, hmaxs2⟩ := align_min_max R1 hR1ne
      have hQ2w : (((a, M) :: (b, M2) :: R2).map Prod.fst).Perm ws := by
        refine List.Perm.trans ?_ hQ1w
        simp only [List.map_cons]
        exact List.Perm.cons a hf2
      have hQ2k : KraftOK (((a, M) :: (b, M2) :: R2).map Prod.snd) := by
        refine kraftOK_perm hQ1k ?_
        simp only [List.map_cons]
        exact (List.Perm.cons M hs2).symm
      have hQ2copt : sInf S ≤ pairCost ((a, M) :: (b, M2) :: R2) :=
        Nat.sInf_le ⟨(a, M) :: (b, M2) :: R2, ⟨hQ2w, hQ2k⟩, rfl⟩
      have hQ2cle : pairCost ((a, M) :: (b, M2) :: R2) ≤ sInf S := by
        have hco : pairCost ((a, M) :: (b, M2) :: R2) ≤ pairCost ((a, M) :: R1) := by
          simp only [pairCost, List.map_cons, List.sum_cons] at hc2 ⊢
          omega
        exact hco.trans (le_of_eq hQ1c)
      have hQ2c : pairCost ((a, M) :: (b, M2) :: R2) = sInf S :=
        le_antisymm hQ2cle hQ2copt
      -- facts about the selected weights and lengths
      have hab : a ≤ b := by
        have hbmem : b ∈ R1.map Prod.fst := hf2.subset (by simp)
        obtain ⟨q, hq, hqb⟩ := List.mem_map.1 hbmem
        rw [← hqb]
        exact hminf1 q hq
      have hM2M : M2 ≤ M := by
        have hmmem : M2 ∈ R1.map Prod.snd := hs2.subset (by simp)
        obtain ⟨q, hq, hqm⟩ := List.mem_map.1 hmmem
        rw [← hqm]
        exact hmaxs1 q hq
      have hR2fst : ∀ q ∈ R2, b ≤ q.1 := hminf2
      have hR2snd : ∀ q ∈ R2, q.2 ≤ M2 := hmaxs2
      have hwpos : ∀ q ∈ (a, M) :: (b, M2) :: R2, 1 ≤ q.1 := by
        intro q hq
        apply hpos
        exact hQ2w.subset (List.mem_map_of_mem Prod.fst hq)
      have ha1 : 1 ≤ a := hwpos (a, M) (List.mem_cons_self _ _)
      have hb1 : 1 ≤ b := hwpos (b, M2) (List.mem_cons_of_mem _ (List.mem_cons_self _ _))
      have hlpos : ∀ bl ∈ ((a, M) :: (b, M2) :: R2).map Prod.snd, 1 ≤ bl := by
        apply kraftOK_lengths_pos hQ2k
        simp only [List.length_map, List.length_cons]
        omega
      have hM1 : 1 ≤ M := hlpos M (by simp)
      have hM21 : 1 ≤ M2 := hlpos M2 (by simp)
      have hboundM : ∀ bl ∈ ((a, M) :: (b, M2) :: R2).map Prod.snd, bl ≤ M := by
        intro bl hbl
        simp only [List.map_cons, List.mem_cons] at hbl
        rcases hbl with rfl | rfl | hbl
        · exact le_refl _
        · exact hM2M
        · obtain ⟨q, hq, hqbl⟩ := List.mem_map.1 hbl
          rw [← hqbl]
          exact le_trans (hR2snd q hq) hM2M
      -- the two largest lengths agree
      have hMM2 : M = M2 := by
        by_contra hne
        have hlt : M2 < M := Nat.lt_of_le_of_ne hM2M (fun he => hne he.symm)
        have hKat := kraftOK_at hQ2k hboundM
        simp only [List.map_cons, kraftSum, List.sum_cons, Nat.sub_self, pow_zero]
          at hKat
        have hdvd : 2 ∣ (2 ^ (M - M2) +
            (List.map (fun bl => 2 ^ (M - bl)) (R2.map Prod.snd)).sum) := by
          apply Nat.dvd_add
          · exact dvd_pow_self 2 (by omega)
          · apply List.dvd_sum
            intro x hx
            obtain ⟨bl, hbl, hxe⟩ := List.mem_map.1 hx
            obtain ⟨q, hq, hqbl⟩ := List.mem_map.1 hbl
            rw [← hxe]
            have : bl ≤ M2 := by rw [← hqbl]; exact hR2snd q hq
            exact dvd_pow_self 2 (by omega)
        have hdvd2 : 2 ∣ 2 ^ M := dvd_pow_self 2 (by omega)
        -- shortening the unique longest codeword stays within budget
        have hQ3k : KraftOK (((a, M - 1) :: (b, M2) :: R2).map Prod.snd) := by
          apply kraftOK_of_bound (B := M)
          · intro bl hbl
            simp only [List.map_cons, List.mem_cons] at hbl
            rcases hbl with rfl | rfl | hbl
            · omega
            · exact hM2M
            · obtain ⟨q, hq, hqbl⟩ := List.mem_map.1 hbl
              rw [← hqbl]
              exact le_trans (hR2snd q hq) hM2M
          · simp only [List.map_cons, kraftSum, List.sum_cons]
            rw [(by omega : M - (M - 1) = 1)]
            obtain ⟨c2, hc2e⟩ := hdvd
            obtain ⟨cM, hcMe⟩ := hdvd2
            omega
        have hQ3w : (((a, M - 1) :: (b, M2) :: R2).map Prod.fst).Perm ws := hQ2w
        have hQ3opt : sInf S ≤ pairCost ((a, M - 1) :: (b, M2) :: R2) :=
          Nat.sInf_le ⟨(a, M - 1) :: (b, M2) :: R2, ⟨hQ3w, hQ3k⟩, rfl⟩
        have hsplit : a * (M - 1) + a = a * M := by
          calc a * (M - 1) + a = a * ((M - 1) + 1) := by ring
            _ = a * M := by rw [(by omega : M - 1 + 1 = M)]
        have hc3 : pairCost ((a, M - 1) :: (b, M2) :: R2) + a =
            pairCost ((a, M) :: (b, M2) :: R2) := by
          simp only [pairCost, List.map_cons, List.sum_cons]
          omega
        omega
      subst hMM2
      -- merge the two cheapest weights and recurse
      have hQ4k : KraftOK (((a + b, M - 1) :: R2).map Prod.snd) := by
        have hKat := kraftOK_at hQ2k hboundM
        simp only [List.map_cons, kraftSum, List.sum_cons, Nat.sub_self, pow_zero]
          at hKat
        apply kraftOK_of_bound (B := M)
        · intro bl hbl
          simp only [List.map_cons, List.mem_cons] at hbl
          rcases hbl with rfl | hbl
          · omega
          · obtain ⟨q, hq, hqbl⟩ := List.mem_map.1 hbl
            rw [← hqbl]
            exact hR2snd q hq
        · simp only [List.map_cons, kraftSum, List.sum_cons]
          rw [(by omega : M - (M - 1) = 1)]
          omega
      have hR2wpos : ∀ w ∈ (a + b) :: R2.map Prod.fst, 1 ≤ w := by
        intro w hw
        rcases List.mem_cons.1 hw with rfl | hw
        · omega
        · obtain ⟨q, hq, hqw⟩ := List.mem_map.1 hw
          rw [← hqw]
          exact hwpos q (List.mem_cons_of_mem _ (List.mem_cons_of_mem _ hq))
      have hR2len2 : R2.length = m2 := by
        have := hf2.length_eq
        simp only [List.length_map, List.length_cons] at this
        omega
      have hih := ih ((a + b) :: R2.map Prod.fst)
        (by simp only [List.length_cons, List.length_map]; omega)
        hR2wpos
        ((a + b, M - 1) :: R2)
        (by simp only [List.map_cons]; exact List.Perm.refl _)
        hQ4k
      -- unfold the greedy cost at its two smallest weights
      have hwperm : ws.Perm (a :: b :: R2.map Prod.fst) := by
        refine hQ2w.symm.trans ?_
        simp only [List.map_cons]
        exact List.Perm.refl _
      have hbound2 : ∀ x ∈ R2.map Prod.fst, b ≤ x := by
        intro x hx
        obtain ⟨q, hq, hqx⟩ := List.mem_map.1 hx
        rw [← hqx]
        exact hR2fst q hq
      have hunfold := hCost_two_min hwperm hab hbound2
      have hsplit : (a + b) * (M - 1) + (a + b) = (a + b) * M := by
        calc (a + b) * (M - 1) + (a + b) = (a + b) * ((M - 1) + 1) := by ring
          _ = (a + b) * M := by rw [(by omega : M - 1 + 1 = M)]
      have hc4 : pairCost ((a + b, M - 1) :: R2) + (a + b) =
          pairCost ((a, M) :: (b, M) :: R2) := by
        simp only [pairCost, List.map_cons, List.sum_cons]
        have : (a + b) * M = a * M + b * M := by ring
        omega
      rw [hunfold]
      omega

/-- Optimality against an aligned Kraft-admissible length list. -/
theorem hCost_le_zipCost {ws ls : List Nat} (hlen : ws.length = ls.length)
    (hpos : ∀ w ∈ ws, 1 ≤ w) (hk : KraftOK ls) :
    hCost ws ≤ zipCost ws ls := by
  rw [zipCost_eq_pairCost]
  apply hCost_le_admissible ws.length ws rfl hpos
  · rw [List.map_fst_zip ws ls (le_of_eq hlen)]
  · rw [List.map_snd_zip ws ls (le_of_eq hlen.symm)]
    exact hk


/-! ## The weighted path length of the built tree -/

/-- The weighted path length of a built tree, computed from the stored
weights: each internal node contributes the weights of its two children,
so each leaf contributes its weight times its depth. -/
def tcost : HuffmanNode → Nat
  | .mk _ _ l r =>
    (match l with | none => 0 | some ln => tcost ln + ln.freq) +
    (match r with | none => 0 | some rn => tcost rn + rn.freq)

/-- The (leaf weight, codeword) pairs of a traversal, in `construct_dict`
order. -/
def codesF : HuffmanNode → List Bool → List (Nat × List Bool)
  | .mk v f l r, p =>
    (match v with | some _ => [(f, p)] | none => []) ++
    ((match l with | none => [] | some ln => codesF ln (p ++ [false])) ++
     (match r with | none => [] | some rn => codesF rn (p ++ [true])))

/-- Trees whose leaves carry weight `φ` of their own symbol and whose
internal nodes carry the sum of their children's weights — the shape the
tree builder produces from a frequency table for `φ`. -/
def goodTree (φ : Symbol → Nat) : HuffmanNode → Prop
  | .mk (some c) f none none => f = φ c
  | .mk none f (some ln) (some rn) =>
      f = ln.freq + rn.freq ∧ goodTree φ ln ∧ goodTree φ rn
  | _ => False

theorem tcost_leaf (v : Option Symbol) (f : Nat) : tcost (.mk v f none none) = 0 := by
  simp [tcost]

theorem tcost_node (v : Option Symbol) (f : Nat) (l r : HuffmanNode) :
    tcost (.mk v f (some l) (some r)) = (tcost l + l.freq) + (tcost r + r.freq) := by
  simp [tcost]

theorem codesF_leaf (c : Symbol) (f : Nat) (p : List Bool) :
    codesF (.mk (some c) f none none) p = [(f, p)] := by
  simp [codesF]

theorem codesF_node (f : Nat) (l r : HuffmanNode) (p : List Bool) :
    codesF (.mk none f (some l) (some r)) p =
      codesF l (p ++ [false]) ++ codesF r (p ++ [true]) := by
  simp [codesF]

theorem goodTree_leaf {φ : Symbol → Nat} {c : Symbol} {f : Nat} :
    goodTree φ (.mk (some c) f none none) ↔ f = φ c := by
  simp [goodTree]

theorem goodTree_node {φ : Symbol → Nat} {f : Nat} {l r : HuffmanNode} :
    goodTree φ (.mk none f (some l) (some r)) ↔
      f = l.freq + r.freq ∧ goodTree φ l ∧ goodTree φ r := by
  simp [goodTree]

/-- Changing the accumulated prefix only re-prefixes every codeword. -/
theorem codesF_shift (n : HuffmanNode) :
    ∀ p, codesF n p = (codesF n []).map (fun fw => (fw.1, p ++ fw.2)) := by
  induction n using HuffmanNode.ind with
  | h v f l r ihl ihr =>
    intro p
    cases v <;> cases l <;> cases r <;>
      (simp only [codesF, List.nil_append]
       try rw [ihl _ rfl (p ++ [false]), ihl _ rfl ([false])]
       try rw [ihr _ rfl (p ++ [true]), ihr _ rfl ([true])]
       simp [List.map_map, Function.comp_def, List.append_assoc])

/-- The recorded leaf weights of a good tree sum to the root weight. -/
theorem codesF_weight {φ : Symbol → Nat} :
    ∀ n, goodTree φ n → ∀ p, ((codesF n p).map Prod.fst).sum = n.freq := by
  intro n
  induction n using HuffmanNode.ind with
  | h v f l r ihl ihr =>
    intro hg p
    match v, l, r, hg with
    | some c, none, none, hg =>
      rw [codesF_leaf]
      simp [HuffmanNode.freq_mk]
    | none, some ln, some rn, hg =>
      obtain ⟨hf, hgl, hgr⟩ := goodTree_node.1 hg
      rw [codesF_node, List.map_append, List.sum_append,
        ihl ln rfl hgl (p ++ [false]), ihr rn rfl hgr (p ++ [true]),
        HuffmanNode.freq_mk, hf]
    | none, none, none, hg => simp [goodTree] at hg
    | none, none, some rn, hg => simp [goodTree] at hg
    | none, some ln, none, hg => simp [goodTree] at hg
    | some c, none, some rn, hg => simp [goodTree] at hg
    | some c, some ln, none, hg => simp [goodTree] at hg
    | some c, some ln, some rn, hg => simp [goodTree] at hg

/-- In a good tree the recorded leaf weights are the `φ`-weights of the
symbols recorded by `codes`. -/
theorem codesF_eq_codes {φ : Symbol → Nat} :
    ∀ n, goodTree φ n → ∀ p,
      codesF n p = (codes n p).map (fun cw => (φ cw.1, cw.2)) := by
  intro n
  induction n using HuffmanNode.ind with
  | h v f l r ihl ihr =>
    intro hg p
    match v, l, r, hg with
    | some c, none, none, hg =>
      have hf : f = φ c := goodTree_leaf.1 hg
      rw [codesF_leaf, codes_leaf, List.map_cons, List.map_nil, hf]
    | none, some ln, some rn, hg =>
      obtain ⟨hf, hgl, hgr⟩ := goodTree_node.1 hg
      rw [codesF_node, codes_node, List.map_append,
        ihl ln rfl hgl (p ++ [false]), ihr rn rfl hgr (p ++ [true])]
    | none, none, none, hg => simp [goodTree] at hg
    | none, none, some rn, hg => simp [goodTree] at hg
    | none, some ln, none, hg => simp [goodTree] at hg
    | some c, none, some rn, hg => simp [goodTree] at hg
    | some c, some ln, none, hg => simp [goodTree] at hg
    | some c, some ln, some rn, hg => simp [goodTree] at hg

theorem cost_shift_list (bit : Bool) :
    ∀ L : List (Nat × List Bool),
      (L.map (fun fw => fw.1 * (bit :: fw.2).length)).sum =
        (L.map Prod.fst).sum + (L.map (fun fw => fw.1 * fw.2.length)).sum := by
  intro L
  induction L with
  | nil => rfl
  | cons a t ih =>
    simp only [List.map_cons, List.sum_cons]
    rw [ih]
    simp only [List.length_cons]
    ring

/-- Extending every codeword by a leading bit adds the total leaf weight
to the weighted length sum. -/
theorem codesF_cost_shift (n : HuffmanNode) (bit : Bool) :
    ((codesF n [bit]).map (fun fw => fw.1 * fw.2.length)).sum =
      ((codesF n []).map Prod.fst).sum +
      ((codesF n []).map (fun fw => fw.1 * fw.2.length)).sum := by
  rw [codesF_shift n [bit], List.map_map]
  have hfun : ((fun fw : Nat × List Bool => fw.1 * fw.2.length) ∘
      (fun fw : Nat × List Bool => (fw.1, [bit] ++ fw.2))) =
      fun fw : Nat × List Bool => fw.1 * (bit :: fw.2).length := rfl
  rw [hfun, cost_shift_list bit]

/-- The weighted path length is the weighted sum of codeword lengths. -/
theorem tcost_codesF {φ : Symbol → Nat} :
    ∀ n, goodTree φ n →
      tcost n = ((codesF n []).map (fun fw => fw.1 * fw.2.length)).sum := by
  intro n
  induction n using HuffmanNode.ind with
  | h v f l r ihl ihr =>
    intro hg
    match v, l, r, hg with
    | some c, none, none, hg =>
      rw [tcost_leaf, codesF_leaf]
      rfl
    | none, some ln, some rn, hg =>
      obtain ⟨hf, hgl, hgr⟩ := goodTree_node.1 hg
      rw [tcost_node, codesF_node, List.map_append, List.sum_append]
      rw [ihl ln rfl hgl, ihr rn rfl hgr]
      have hl := codesF_cost_shift ln false
      have hr := codesF_cost_shift rn true
      have hwl := codesF_weight ln hgl []
      have hwr := codesF_weight rn hgr []
      simp only [List.nil_append]
      omega
    | none, none, none, hg => simp [goodTree] at hg
    | none, none, some rn, hg => simp [goodTree] at hg
    | none, some ln, none, hg => simp [goodTree] at hg
    | some c, none, some rn, hg => simp [goodTree] at hg
    | some c, some ln, none, hg => simp [goodTree] at hg
    | some c, some ln, some rn, hg => simp [goodTree] at hg

/-! ## The merge loop and the greedy cost -/

/-- The merge loop preserves any predicate closed under merging. -/
theorem buildLoop_preserves (P : HuffmanNode → Prop)
    (hmerge : ∀ x y, P x → P y →
      P (HuffmanNode.mk none (x.freq + y.freq) (some x) (some y))) :
    ∀ (N : Nat) (q nq : List HuffmanNode) (root : HuffmanNode),
      q.length + nq.length ≤ N →
      buildLoop q nq = .ok root →
      (∀ x ∈ q ++ nq, P x) →
      P root := by
  intro N
  induction N with
  | zero =>
    intro q nq root hN h hP
    have hq : q = [] := List.length_eq_zero.1 (by omega)
    have hn : nq = [] := List.length_eq_zero.1 (by omega)
    subst hq; subst hn
    rw [buildLoop_stop (by simp)] at h
    simp [index0] at h
  | succ N ih =>
    intro q nq root hN h hP
    by_cases hgt : q.length + nq.length > 1
    · have hne1 : q ++ nq ≠ [] := by
        intro hc
        have hlc := congrArg List.length hc
        simp only [List.length_append, List.length_nil] at hlc
        omega
      obtain ⟨x, q1, n1, hp1⟩ := popmin_ok hne1
      have hlen1 := popmin_length hp1
      have hne2 : q1 ++ n1 ≠ [] := by
        intro hc
        have hlc := congrArg List.length hc
        simp only [List.length_append, List.length_nil] at hlc
        omega
      obtain ⟨y, q2, n2, hp2⟩ := popmin_ok hne2
      have hlen2 := popmin_length hp2
      rw [buildLoop_step hgt hp1 hp2] at h
      have hperm1 := popmin_perm hp1
      have hperm2 := popmin_perm hp2
      have hx : x ∈ q ++ nq := hperm1.subset (List.mem_cons_self _ _)
      have hy : y ∈ q ++ nq :=
        hperm1.subset (List.mem_cons_of_mem _ (hperm2.subset (List.mem_cons_self _ _)))
      have hsub2 : ∀ z ∈ q2 ++ n2, z ∈ q ++ nq := fun z hz =>
        hperm1.subset (List.mem_cons_of_mem _ (hperm2.subset (List.mem_cons_of_mem _ hz)))
      apply ih q2 (n2 ++ [HuffmanNode.mk none (x.freq + y.freq) (some x) (some y)]) root
        (by simp only [List.length_append, List.length_cons, List.length_nil]; omega) h
      intro z hz
      rcases List.mem_append.1 hz with hz | hz
      · exact hP z (hsub2 z (List.mem_append.2 (Or.inl hz)))
      · rcases List.mem_append.1 hz with hz | hz
        · exact hP z (hsub2 z (List.mem_append.2 (Or.inr hz)))
        · rcases List.mem_singleton.1 hz with rfl
          exact hmerge x y (hP x hx) (hP y hy)
    · rw [buildLoop_stop hgt] at h
      match nq, h, hP with
      | [], h, _ => exact absurd h (by simp [index0])
      | x :: t, h, hP =>
        have hroot : root = x := by
          simp only [index0, Except.ok.injEq] at h
          exact h.symm
        rw [hroot]
        exact hP x (by simp)

/-- Through the merge loop, the weighted path length of the final tree is
the total pending weighted path length plus the greedy merge cost of the
pending weights (each merge pays the two minimal pending weights, exactly
as `hCost` does). -/
theorem buildLoop_tcost :
    ∀ (N : Nat) (q nq : List HuffmanNode) (lb : Nat) (root : HuffmanNode),
      q.length + nq.length ≤ N →
      BuilderInv q nq lb →
      buildLoop q nq = .ok root →
      tcost root =
        ((q ++ nq).map tcost).sum + hCost ((q ++ nq).map HuffmanNode.freq) := by
  intro N
  induction N with
  | zero =>
    intro q nq lb root hN hinv h
    have hq : q = [] := List.length_eq_zero.1 (by omega)
    have hn : nq = [] := List.length_eq_zero.1 (by omega)
    subst hq; subst hn
    rw [buildLoop_stop (by simp)] at h
    simp [index0] at h
  | succ N ih =>
    intro q nq lb root hN hinv h
    by_cases h2 : 2 ≤ q.length + nq.length
    · obtain ⟨first, q1, n1, second, q2, n2, hp1, hp2, hmin1, hmin2, h12, htie,
        hstep, hinv2⟩ := builder_round hinv h2
      have hlen1 := popmin_length hp1
      have hlen2 := popmin_length hp2
      rw [hstep] at h
      have hih := ih q2 (n2 ++ [HuffmanNode.mk none (first.freq + second.freq)
          (some first) (some second)]) second.freq root
        (by simp only [List.length_append, List.length_cons, List.length_nil]; omega)
        hinv2 h
      have hperm1 := popmin_perm hp1
      have hperm2 := popmin_perm hp2
      have hqperm : (q ++ nq).Perm (first :: second :: (q2 ++ n2)) :=
        hperm1.symm.trans (hperm2.symm.cons first)
      have hfreqperm : ((q ++ nq).map HuffmanNode.freq).Perm
          (first.freq :: second.freq :: ((q2 ++ n2).map HuffmanNode.freq)) := by
        have hm := hqperm.map HuffmanNode.freq
        simpa using hm
      have hminrest : ∀ z ∈ (q2 ++ n2).map HuffmanNode.freq, second.freq ≤ z := by
        intro z hz
        obtain ⟨y2, hy2, rfl⟩ := List.mem_map.1 hz
        exact hmin2 y2 (hperm2.subset (List.mem_cons_of_mem _ hy2))
      have hunfold := hCost_two_min hfreqperm h12 hminrest
      have htsum : ((q ++ nq).map tcost).sum =
          tcost first + (tcost second + ((q2 ++ n2).map tcost).sum) := by
        have hm := (hqperm.map tcost).sum_eq
        simpa using hm
      rw [hih, hunfold, htsum]
      have hsumnew : ((q2 ++ (n2 ++ [HuffmanNode.mk none (first.freq + second.freq)
          (some first) (some second)])).map tcost).sum =
          ((q2 ++ n2).map tcost).sum +
            (tcost first + first.freq + (tcost second + second.freq)) := by
        rw [← List.append_assoc, List.map_append, List.sum_append, List.map_cons,
          List.map_nil, tcost_node]
        simp only [List.sum_cons, List.sum_nil]
        omega
      have hcostnew : hCost ((q2 ++ (n2 ++ [HuffmanNode.mk none
          (first.freq + second.freq) (some first) (some second)])).map
            HuffmanNode.freq) =
          hCost ((first.freq + second.freq) :: ((q2 ++ n2).map HuffmanNode.freq)) := by
        apply hCost_perm
        rw [← List.append_assoc, List.map_append, List.map_cons, List.map_nil,
          HuffmanNode.freq_mk]
        exact List.perm_append_singleton _ _
      rw [hsumnew, hcostnew]
      omega
    · rw [buildLoop_stop (by omega)] at h
      match nq, h, h2 with
      | [], h, _ => exact absurd h (by simp [index0])
      | x :: t, h, h2 =>
        have hroot : root = x := by
          simp only [index0, Except.ok.injEq] at h
          exact h.symm
        have hlen : q.length + (x :: t).length ≤ 1 := by omega
        simp only [List.length_cons] at hlen
        have hq : q = [] := List.length_eq_zero.1 (by omega)
        have ht : t = [] := List.length_eq_zero.1 (by omega)
        subst hq; subst ht
        rw [hroot]
        simp [hCost_single]

/-! ## The pipeline tree's weights and cost -/

theorem map_freq_guard (P : Symbol → Bool) (g : Symbol → Nat) (l : List Symbol) :
    ((l.filterMap (fun i =>
        if P i then some (HuffmanNode.mk (some i) (g i) none none) else none)).map
      HuffmanNode.freq) =
      (l.filterMap (fun i => if P i then some i else none)).map g := by
  induction l with
  | nil => rfl
  | cons a t ih =>
    by_cases hP : P a <;> simp [hP, ih, HuffmanNode.freq_mk]

/-- The weights pending at the start of tree construction are the counts
of the input's distinct symbols. -/
theorem leaves_freqs (s : List Symbol) :
    (((construct_frequency_table s).filterMap id).map HuffmanNode.freq) =
      (distinctSyms s).map (fun c => s.count c) := by
  rw [ftable_eq, filterMap_modelTable, distinctSyms]
  have h := map_freq_guard (fun i => decide (0 < s.count i)) (fun i => s.count i)
    (List.finRange 256)
  simp only [decide_eq_true_eq] at h
  exact h

theorem leaves_good (s : List Symbol) :
    ∀ x ∈ (construct_frequency_table s).filterMap id,
      goodTree (fun c => s.count c) x := by
  intro x hx
  obtain ⟨c, hc, rfl⟩ := mem_leaves hx
  exact goodTree_leaf.2 rfl

/-- A successfully built tree is good for the input's counts, and its
weighted path length is the greedy merge cost of those counts. -/
theorem tree_tcost {s : List Symbol} {root : HuffmanNode}
    (hok : construct_huffman_tree (construct_frequency_table s) = .ok root) :
    goodTree (fun c => s.count c) root ∧
    tcost root = hCost ((distinctSyms s).map (fun c => s.count c)) := by
  rw [construct_huffman_tree] at hok
  set leaves := (construct_frequency_table s).filterMap id with hleaves
  set queue := leaves.mergeSort (fun a b => Nat.ble a.freq b.freq) with hqueue
  have hqperm : queue.Perm leaves := List.mergeSort_perm leaves _
  constructor
  · apply buildLoop_preserves (goodTree (fun c => s.count c))
      (fun x y hx hy => goodTree_node.2 ⟨rfl, hx, hy⟩)
      queue.length queue [] root (by simp) hok
    intro x hx
    simp only [List.append_nil] at hx
    exact leaves_good s x (hqperm.subset hx)
  · have ht := buildLoop_tcost queue.length queue [] 0 root (by simp)
      (builderInv_init leaves) hok
    rw [ht]
    have hzero : ((queue ++ []).map tcost).sum = 0 := by
      apply List.sum_eq_zero
      intro x hx
      obtain ⟨y, hy, rfl⟩ := List.mem_map.1 hx
      simp only [List.append_nil] at hy
      obtain ⟨c, hc, rfl⟩ := mem_leaves (hqperm.subset hy)
      exact tcost_leaf _ _
    rw [hzero]
    have hfr : ((queue ++ []).map HuffmanNode.freq).Perm
        ((distinctSyms s).map (fun c => s.count c)) := by
      rw [List.append_nil, ← leaves_freqs s]
      exact hqperm.map HuffmanNode.freq
    rw [Nat.zero_add, hCost_perm hfr]

/-- For the pipeline tree, the weighted path length equals the sum over
the distinct input symbols of count times dictionary codeword length. -/
theorem tcost_eq_dict_sum {s : List Symbol} {f : Nat} {l r : HuffmanNode}
    (hgood : goodTree (fun c => s.count c) (HuffmanNode.mk none f (some l) (some r)))
    (hnodup : (syms (HuffmanNode.mk none f (some l) (some r))).Nodup)
    (hperm : (distinctSyms s).Perm (syms (HuffmanNode.mk none f (some l) (some r)))) :
    tcost (HuffmanNode.mk none f (some l) (some r)) =
      ((distinctSyms s).map (fun c => s.count c *
        (((construct_dict (some (HuffmanNode.mk none f (some l) (some r))) none
          none).getD c.val none).getD []).length)).sum := by
  rw [tcost_codesF (HuffmanNode.mk none f (some l) (some r)) hgood,
    codesF_eq_codes (HuffmanNode.mk none f (some l) (some r)) hgood [],
    List.map_map]
  have hstep1 : ((codes (HuffmanNode.mk none f (some l) (some r)) []).map
      ((fun fw : Nat × List Bool => fw.1 * fw.2.length) ∘
        (fun cw : Symbol × List Bool => (s.count cw.1, cw.2)))) =
      (codes (HuffmanNode.mk none f (some l) (some r)) []).map
        (fun cw => s.count cw.1 *
          (((construct_dict (some (HuffmanNode.mk none f (some l) (some r))) none
            none).getD cw.1.val none).getD []).length) := by
    apply List.map_congr_left
    intro cw hcw
    have hentry := dict_entry_some hnodup hcw
    rw [Function.comp_apply, hentry]
    simp
  rw [hstep1]
  have hstep2 : ((codes (HuffmanNode.mk none f (some l) (some r)) []).map
      (fun cw => s.count cw.1 *
        (((construct_dict (some (HuffmanNode.mk none f (some l) (some r))) none
          none).getD cw.1.val none).getD []).length)) =
      (syms (HuffmanNode.mk none f (some l) (some r))).map
        (fun c => s.count c *
          (((construct_dict (some (HuffmanNode.mk none f (some l) (some r))) none
            none).getD c.val none).getD []).length) := by
    rw [syms, List.map_map]
    rfl
  rw [hstep2]
  exact ((hperm.map _).sum_eq).symm

/-! ## Regrouping the encoded length -/

theorem length_flatMap_sum (s : List Symbol) (g : Symbol → List Bool) :
    (s.flatMap g).length = (s.map (fun c => (g c).length)).sum := by
  induction s with
  | nil => rfl
  | cons c t ih => simp [List.flatMap_cons, ih]

/-- A symbol-wise sum regroups as a count-weighted sum over the distinct
symbols. -/
theorem sum_over_distinct (s : List Symbol) (F : Symbol → Nat) :
    (s.map F).sum = ((distinctSyms s).map (fun c => s.count c * F c)).sum := by
  rw [Finset.sum_list_map_count]
  have hfin : s.toFinset = (distinctSyms s).toFinset := by
    ext c
    simp [List.mem_toFinset, mem_distinctSyms]
  rw [hfin, List.sum_toFinset _ (distinctSyms_nodup s)]
  simp [smul_eq_mul]

theorem zipCost_map_map {α : Type} (l : List α) (f g : α → Nat) :
    zipCost (l.map f) (l.map g) = (l.map (fun x => f x * g x)).sum := by
  induction l with
  | nil => rfl
  | cons a t ih =>
    simp only [List.map_cons, zipCost, List.zipWith_cons_cons, List.sum_cons] at ih ⊢
    rw [ih]

/-- A successful tree build needs at least two distinct input symbols. -/
theorem two_distinct_of_ok {s : List Symbol} {root : HuffmanNode}
    (hok : construct_huffman_tree (construct_frequency_table s) = .ok root) :
    ∃ a b, a ∈ s ∧ b ∈ s ∧ a ≠ b := by
  rw [construct_huffman_tree] at hok
  set leaves := (construct_frequency_table s).filterMap id with hleaves
  set queue := leaves.mergeSort (fun a b => Nat.ble a.freq b.freq) with hqueue
  have h2 : 2 ≤ queue.length := by
    by_contra hle
    have h1 : ¬ queue.length + ([] : List HuffmanNode).length > 1 := by
      simp only [List.length_nil]
      omega
    rw [buildLoop_stop h1] at hok
    simp [index0] at hok
  have hql : queue.length = leaves.length := (List.mergeSort_perm leaves _).length_eq
  have hlf := leaves_freqs s
  have hdl : 2 ≤ (distinctSyms s).length := by
    have hll := congrArg List.length hlf
    simp only [List.length_map] at hll
    rw [← hleaves] at hll
    omega
  rcases hDs : distinctSyms s with _ | ⟨c1, rest⟩
  · rw [hDs] at hdl
    simp at hdl
  · rcases rest with _ | ⟨c2, t⟩
    · rw [hDs] at hdl
      simp at hdl
    · have hnd := distinctSyms_nodup s
      rw [hDs] at hnd
      have hne : c1 ≠ c2 := (List.pairwise_cons.1 hnd).1 c2 (List.mem_cons_self _ _)
      refine ⟨c1, c2, ?_, ?_, hne⟩
      · exact mem_distinctSyms.1 (by rw [hDs]; simp)
      · exact mem_distinctSyms.1 (by rw [hDs]; simp)

/-! ## Claims -/

/-- C1 counterexample: the round-trip claim quantifies over every non-empty
symbol sequence, but on the single-symbol input "a" the pipeline already
fails: `construct_huffman_tree` raises an `IndexError` (`node_queue[0]` on
an empty list), so no tree, code table, encoding or decoding exists for
this input and the claimed equality cannot hold there. -/
theorem C1_counterexample :
    construct_huffman_tree (construct_frequency_table [97]) =
      Except.error PyErr.indexError := by
  have hL : (construct_frequency_table [97]).filterMap id =
      [HuffmanNode.mk (some 97) 1 none none] := rfl
  have hs : ([HuffmanNode.mk (some 97) 1 none none] : List HuffmanNode).Pairwise
      (fun a b => Nat.ble a.freq b.freq) := by decide
  rw [ctree_concrete hL hs, buildLoop_stop (by decide)]
  rfl

/-- C1 (amended): for every symbol sequence containing at least two
distinct symbols, decoding the encoding of the sequence — where the code
table and tree are built from the sequence's own frequency table — yields
the sequence again:
`decode(encode(S, construct_dict(T)), T) == S` for
`T = construct_huffman_tree(construct_frequency_table(S))`. -/
theorem C1_roundtrip {s : List Symbol} {a b : Symbol}
    (ha : a ∈ s) (hb : b ∈ s) (hab : a ≠ b) :
    ∃ root bits,
      construct_huffman_tree (construct_frequency_table s) = .ok root ∧
      encode s (construct_dict (some root) none none) = .ok bits ∧
      decode bits root = .ok s :=
  roundtrip ha hb hab

/-- C1 witness: the round trip exists at the concrete input "abb". -/
theorem C1_roundtrip_witness :
    (97 : Symbol) ∈ ([97, 98, 98] : List Symbol) ∧
    (98 : Symbol) ∈ ([97, 98, 98] : List Symbol) ∧
    (97 : Symbol) ≠ (98 : Symbol) ∧
    ∃ root bits,
      construct_huffman_tree (construct_frequency_table [97, 98, 98]) = .ok root ∧
      encode [97, 98, 98] (construct_dict (some root) none none) = .ok bits ∧
      decode bits root = .ok [97, 98, 98] :=
  ⟨by decide, by decide, by decide,
    C1_roundtrip (s := [97, 98, 98]) (a := 97) (b := 98)
      (by decide) (by decide) (by decide)⟩

/-- C2: the spec requires the single-symbol input "aaaa" to receive a
codeword of length at least one and to round-trip; the code instead
crashes first: with one distinct symbol the merge loop
(`while len(queue) + len(node_queue) > 1`) never runs, `node_queue` stays
empty and `construct_huffman_tree` raises an uncaught `IndexError` at
`node_queue[0]`, so no codeword is ever assigned and no encoding or
decoding happens. -/
theorem C2_single_symbol_crash :
    construct_huffman_tree (construct_frequency_table [97, 97, 97, 97]) =
      Except.error PyErr.indexError := by
  have hL : (construct_frequency_table [97, 97, 97, 97]).filterMap id =
      [HuffmanNode.mk (some 97) 4 none none] := rfl
  have hs : ([HuffmanNode.mk (some 97) 4 none none] : List HuffmanNode).Pairwise
      (fun a b => Nat.ble a.freq b.freq) := by decide
  rw [ctree_concrete hL hs, buildLoop_stop (by decide)]
  rfl

/-- C3 counterexample: against the tree built from "abcc" the symbol 'a'
has the two-bit codeword `[1,0]`; decoding just its first bit returns
`.ok []` — the decoder silently drops the trailing partial codeword
instead of failing with a `TruncatedStream` error. -/
theorem C3_counterexample :
    construct_huffman_tree (construct_frequency_table [97, 98, 99, 99]) =
      .ok (HuffmanNode.mk none 4 (some (HuffmanNode.mk (some 99) 2 none none))
        (some (HuffmanNode.mk none 2 (some (HuffmanNode.mk (some 97) 1 none none))
          (some (HuffmanNode.mk (some 98) 1 none none))))) ∧
    (97, [true, false]) ∈
      codes (HuffmanNode.mk none 4 (some (HuffmanNode.mk (some 99) 2 none none))
        (some (HuffmanNode.mk none 2 (some (HuffmanNode.mk (some 97) 1 none none))
          (some (HuffmanNode.mk (some 98) 1 none none))))) [] ∧
    decode [true]
      (HuffmanNode.mk none 4 (some (HuffmanNode.mk (some 99) 2 none none))
        (some (HuffmanNode.mk none 2 (some (HuffmanNode.mk (some 97) 1 none none))
          (some (HuffmanNode.mk (some 98) 1 none none))))) = .ok [] ∧
    (Except.ok ([] : List Symbol) : Except PyErr (List Symbol)) ≠
      .error .truncatedStream := by
  refine ⟨?_, ?_, rfl, fun h => Except.noConfusion h⟩
  · have hL : (construct_frequency_table [97, 98, 99, 99]).filterMap id =
        [HuffmanNode.mk (some 97) 1 none none, HuffmanNode.mk (some 98) 1 none none,
         HuffmanNode.mk (some 99) 2 none none] := rfl
    have hs : ([HuffmanNode.mk (some 97) 1 none none, HuffmanNode.mk (some 98) 1 none none,
        HuffmanNode.mk (some 99) 2 none none] : List HuffmanNode).Pairwise
          (fun a b => Nat.ble a.freq b.freq) := by decide
    rw [ctree_concrete hL hs]
    have hp1 : popmin [HuffmanNode.mk (some 97) 1 none none,
        HuffmanNode.mk (some 98) 1 none none, HuffmanNode.mk (some 99) 2 none none] [] =
        .ok (HuffmanNode.mk (some 97) 1 none none,
          [HuffmanNode.mk (some 98) 1 none none, HuffmanNode.mk (some 99) 2 none none],
          []) := rfl
    have hp2 : popmin [HuffmanNode.mk (some 98) 1 none none,
        HuffmanNode.mk (some 99) 2 none none] [] =
        .ok (HuffmanNode.mk (some 98) 1 none none,
          [HuffmanNode.mk (some 99) 2 none none], []) := rfl
    rw [buildLoop_step (by decide) hp1 hp2]
    show buildLoop [HuffmanNode.mk (some 99) 2 none none]
      [HuffmanNode.mk none 2 (some (HuffmanNode.mk (some 97) 1 none none))
        (some (HuffmanNode.mk (some 98) 1 none none))] = _
    have hp3 : popmin [HuffmanNode.mk (some 99) 2 none none]
        [HuffmanNode.mk none 2 (some (HuffmanNode.mk (some 97) 1 none none))
          (some (HuffmanNode.mk (some 98) 1 none none))] =
        .ok (HuffmanNode.mk (some 99) 2 none none, [],
          [HuffmanNode.mk none 2 (some (HuffmanNode.mk (some 97) 1 none none))
            (some (HuffmanNode.mk (some 98) 1 none none))]) := rfl
    have hp4 : popmin ([] : List HuffmanNode)
        [HuffmanNode.mk none 2 (some (HuffmanNode.mk (some 97) 1 none none))
          (some (HuffmanNode.mk (some 98) 1 none none))] =
        .ok (HuffmanNode.mk none 2 (some (HuffmanNode.mk (some 97) 1 none none))
          (some (HuffmanNode.mk (some 98) 1 none none)), [], []) := rfl
    rw [buildLoop_step (by decide) hp3 hp4]
    rw [buildLoop_stop (by decide)]
    rfl
  · rw [codes_node, codes_leaf, codes_node, codes_leaf, codes_leaf]
    decide

/-- C3 (amended): when the bit sequence ends partway through a codeword of
the tree it is decoded against, `decode` silently returns only the symbols
fully decoded so far, dropping the trailing partial codeword; it does not
fail (the code has no `TruncatedStream` error). -/
theorem C3_truncated_silently_dropped {f : Nat} {l r : HuffmanNode}
    (hwf : Wf (HuffmanNode.mk none f (some l) (some r)))
    (S : List Symbol) (g : Symbol → List Bool)
    (hall : ∀ c ∈ S, (c, g c) ∈ codes (HuffmanNode.mk none f (some l) (some r)) [])
    {c : Symbol} {w p t : List Bool}
    (hcw : (c, w) ∈ codes (HuffmanNode.mk none f (some l) (some r)) [])
    (hpt : p ++ t = w) (ht : t ≠ []) :
    decode (S.flatMap g ++ p) (HuffmanNode.mk none f (some l) (some r)) = .ok S := by
  rw [decode, decodeGo_flatMap_append _ hwf rfl g S p [] hall]
  rw [decodeGo_mid _ hwf c w p t ([] ++ S) rfl hcw hpt ht]
  simp

/-- C3 witness: against the "abcc"-shaped tree, decoding the codeword of
'c' followed by the first bit of the two-bit codeword of 'a' yields just
"c", silently dropping the partial codeword. -/
theorem C3_truncated_witness :
    decode ([false] ++ [true])
      (HuffmanNode.mk none 4 (some (HuffmanNode.mk (some 99) 2 none none))
        (some (HuffmanNode.mk none 2 (some (HuffmanNode.mk (some 97) 1 none none))
          (some (HuffmanNode.mk (some 98) 1 none none))))) = .ok [99] := by
  have h := C3_truncated_silently_dropped
    (f := 4) (l := HuffmanNode.mk (some 99) 2 none none)
    (r := HuffmanNode.mk none 2 (some (HuffmanNode.mk (some 97) 1 none none))
      (some (HuffmanNode.mk (some 98) 1 none none)))
    (Wf.node 4 (Wf.leaf 99 2) (Wf.node 2 (Wf.leaf 97 1) (Wf.leaf 98 1)))
    [99] (fun _ => [false])
    (by
      intro c hc
      rcases List.mem_singleton.1 hc with rfl
      rw [codes_node, codes_leaf, codes_node, codes_leaf, codes_leaf]
      decide)
    (c := 97) (w := [true, false]) (p := [true]) (t := [false])
    (by
      rw [codes_node, codes_leaf, codes_node, codes_leaf, codes_leaf]
      decide)
    rfl (by decide)
  simpa using h

/-- C4 counterexample: on a frequency table with no symbol entries the
builder does fail, but with an uncaught `IndexError` from `node_queue[0]`,
not with a dedicated `EmptyAlphabet` error — the module defines no such
error class. -/
theorem C4_counterexample :
    construct_huffman_tree (List.replicate 256 none) = .error .indexError ∧
    PyErr.indexError ≠ PyErr.emptyAlphabet := by
  constructor
  · have hL : (List.replicate 256 (none : Option HuffmanNode)).filterMap id = [] := rfl
    rw [ctree_concrete hL List.Pairwise.nil, buildLoop_stop (by decide)]
    rfl
  · decide

/-- C4 (amended): for every frequency table containing no symbol entries,
`construct_huffman_tree` fails with an uncaught `IndexError` (the merge
loop never runs, `node_queue` stays empty and `node_queue[0]` raises) —
not with a dedicated `EmptyAlphabet` error. -/
theorem C4_empty_table {ft : List (Option HuffmanNode)}
    (hempty : ∀ x ∈ ft, x = none) :
    construct_huffman_tree ft = .error .indexError := by
  have hL : ft.filterMap id = [] := by
    rw [List.filterMap_eq_nil_iff]
    intro a ha
    rw [hempty a ha]
    rfl
  rw [ctree_concrete hL List.Pairwise.nil, buildLoop_stop (by decide)]
  rfl

/-- C4 witness: the empty-table failure at the concrete 256-entry empty
table. -/
theorem C4_empty_table_witness :
    (∀ x ∈ List.replicate 256 (none : Option HuffmanNode), x = none) ∧
    construct_huffman_tree (List.replicate 256 none) = .error .indexError :=
  ⟨fun x hx => List.eq_of_mem_replicate hx,
    C4_empty_table (fun x hx => List.eq_of_mem_replicate hx)⟩

/-- C5 counterexample: encoding "c" against the code table derived from
"ab" does fail — but with an uncaught `TypeError` (`out += None`, the
missing entry being `None`), not with a dedicated `UnknownSymbol` error —
the module defines no such error class. -/
theorem C5_counterexample :
    construct_huffman_tree (construct_frequency_table [97, 98]) =
      .ok (HuffmanNode.mk none 2 (some (HuffmanNode.mk (some 97) 1 none none))
        (some (HuffmanNode.mk (some 98) 1 none none))) ∧
    encode [99] (construct_dict (some (HuffmanNode.mk none 2
      (some (HuffmanNode.mk (some 97) 1 none none))
      (some (HuffmanNode.mk (some 98) 1 none none)))) none none) = .error .typeError ∧
    PyErr.typeError ≠ PyErr.unknownSymbol := by
  refine ⟨?_, ?_, by decide⟩
  · have hL : (construct_frequency_table [97, 98]).filterMap id =
        [HuffmanNode.mk (some 97) 1 none none, HuffmanNode.mk (some 98) 1 none none] := rfl
    have hs : ([HuffmanNode.mk (some 97) 1 none none,
        HuffmanNode.mk (some 98) 1 none none] : List HuffmanNode).Pairwise
          (fun a b => Nat.ble a.freq b.freq) := by decide
    rw [ctree_concrete hL hs]
    have hp1 : popmin [HuffmanNode.mk (some 97) 1 none none,
        HuffmanNode.mk (some 98) 1 none none] [] =
        .ok (HuffmanNode.mk (some 97) 1 none none,
          [HuffmanNode.mk (some 98) 1 none none], []) := rfl
    have hp2 : popmin [HuffmanNode.mk (some 98) 1 none none] [] =
        .ok (HuffmanNode.mk (some 98) 1 none none, [], []) := rfl
    rw [buildLoop_step (by decide) hp1 hp2]
    rw [buildLoop_stop (by decide)]
    rfl
  · rw [construct_dict_top]
    rw [codes_node, codes_leaf, codes_leaf]
    rfl

/-- C5 (amended): for every input string and every 256-entry code table,
if some input symbol has no entry in the table, `encode` fails with an
uncaught `TypeError` (the `None` entry cannot be concatenated) — it does
not silently skip the symbol, and no `UnknownSymbol` error exists. -/
theorem C5_missing_symbol {S : List Symbol} {d : List (Option (List Bool))}
    (hd : d.length = 256) (hmiss : ∃ c ∈ S, d.getD c.val none = none) :
    encode S d = .error .typeError :=
  encodeLoop_missing d hd S [] hmiss

/-- C5 witness: encoding "c" against an empty 256-entry table raises the
`TypeError`. -/
theorem C5_missing_symbol_witness :
    (List.replicate 256 (none : Option (List Bool))).length = 256 ∧
    (∃ c ∈ ([99] : List Symbol),
      (List.replicate 256 (none : Option (List Bool))).getD c.val none = none) ∧
    encode [99] (List.replicate 256 none) = .error .typeError :=
  ⟨by simp, ⟨99, by decide, rfl⟩,
    C5_missing_symbol (by simp) ⟨99, by decide, rfl⟩⟩

/-- C6: for every code table derived via `construct_dict` from a tree
built by `construct_huffman_tree` from a non-empty frequency table (a
table of leaf nodes, one per distinct symbol), and for every pair of
distinct symbols with codewords in that table, neither codeword is a
front segment of the other. -/
theorem C6_prefix_free {ft : List (Option HuffmanNode)} {root : HuffmanNode}
    (hleaf : ∀ n ∈ ft.filterMap id, ∃ c fr, n = HuffmanNode.mk (some c) fr none none)
    (hnodup : ((ft.filterMap id).flatMap syms).Nodup)
    (hok : construct_huffman_tree ft = .ok root)
    {c c' : Symbol} (hcc : c ≠ c') {w w' : List Bool}
    (hw : (construct_dict (some root) none none).getD c.val none = some w)
    (hw' : (construct_dict (some root) none none).getD c'.val none = some w') :
    ¬ isCodePre w w' ∧ ¬ isCodePre w' w := by
  obtain ⟨hwf, hval, hnd⟩ := tree_spec_table hleaf hnodup hok
  obtain ⟨f, l, r, rfl⟩ : ∃ f l r, root = HuffmanNode.mk none f (some l) (some r) := by
    cases hwf with
    | leaf c0 f0 => simp [HuffmanNode.value] at hval
    | node f0 hl hr => exact ⟨f0, _, _, rfl⟩
  have hm := dict_entry_inv hnd hw
  have hm' := dict_entry_inv hnd hw'
  constructor
  · rintro ⟨t, htw⟩
    have heqw : w = w' := codes_pre hwf [] c w c' w' hm hm' ⟨t, htw⟩
    rw [heqw] at hm
    exact hcc (codes_inj hwf [] c w' c' hm hm')
  · rintro ⟨t, htw⟩
    have heqw : w' = w := codes_pre hwf [] c' w' c w hm' hm ⟨t, htw⟩
    rw [heqw] at hm'
    exact hcc (codes_inj hwf [] c w c' hm hm')

/-- C6 witness: prefix-freeness instantiated on the table derived from
"ab": the codewords `[0]` of 'a' and `[1]` of 'b' are not front segments
of one another. -/
theorem C6_prefix_free_witness :
    ¬ isCodePre [false] [true] ∧ ¬ isCodePre [true] [false] := by
  have htree : construct_huffman_tree (construct_frequency_table [97, 98]) =
      .ok (HuffmanNode.mk none 2 (some (HuffmanNode.mk (some 97) 1 none none))
        (some (HuffmanNode.mk (some 98) 1 none none))) := by
    have hL : (construct_frequency_table [97, 98]).filterMap id =
        [HuffmanNode.mk (some 97) 1 none none, HuffmanNode.mk (some 98) 1 none none] := rfl
    have hs : ([HuffmanNode.mk (some 97) 1 none none,
        HuffmanNode.mk (some 98) 1 none none] : List HuffmanNode).Pairwise
          (fun a b => Nat.ble a.freq b.freq) := by decide
    rw [ctree_concrete hL hs]
    have hp1 : popmin [HuffmanNode.mk (some 97) 1 none none,
        HuffmanNode.mk (some 98) 1 none none] [] =
        .ok (HuffmanNode.mk (some 97) 1 none none,
          [HuffmanNode.mk (some 98) 1 none none], []) := rfl
    have hp2 : popmin [HuffmanNode.mk (some 98) 1 none none] [] =
        .ok (HuffmanNode.mk (some 98) 1 none none, [], []) := rfl
    rw [buildLoop_step (by decide) hp1 hp2]
    rw [buildLoop_stop (by decide)]
    rfl
  have hdict : ∀ cw : Symbol × List Bool, cw ∈ [((97 : Symbol), [false]),
      ((98 : Symbol), [true])] →
      (construct_dict (some (HuffmanNode.mk none 2
        (some (HuffmanNode.mk (some 97) 1 none none))
        (some (HuffmanNode.mk (some 98) 1 none none)))) none none).getD
          cw.1.val none = some cw.2 := by
    intro cw hcw
    rw [construct_dict_top, codes_node, codes_leaf, codes_leaf]
    rcases List.mem_cons.1 hcw with rfl | hcw2
    · rfl
    · rcases List.mem_singleton.1 hcw2 with rfl
      rfl
  exact C6_prefix_free
    (by
      intro n hn
      have hn2 : n ∈ [HuffmanNode.mk (some 97) 1 none none,
          HuffmanNode.mk (some 98) 1 none none] := by
        have hL : (construct_frequency_table [97, 98]).filterMap id =
            [HuffmanNode.mk (some 97) 1 none none,
             HuffmanNode.mk (some 98) 1 none none] := rfl
        rw [hL] at hn
        exact hn
      rcases List.mem_cons.1 hn2 with rfl | hn3
      · exact ⟨97, 1, rfl⟩
      · rcases List.mem_singleton.1 hn3 with rfl
        exact ⟨98, 1, rfl⟩)
    (by
      have hL : (construct_frequency_table [97, 98]).filterMap id =
          [HuffmanNode.mk (some 97) 1 none none,
           HuffmanNode.mk (some 98) 1 none none] := rfl
      rw [hL, List.flatMap_cons, List.flatMap_cons, List.flatMap_nil,
        syms_leaf, syms_leaf]
      decide)
    htree (by decide)
    (hdict ((97 : Symbol), [false]) (by decide))
    (hdict ((98 : Symbol), [true]) (by decide))

/-- C7: in every round of tree construction the builder removes the two
pending nodes of smallest weight — first the global minimum, then the
minimum of the remainder — breaking a weight tie between the two pending
lists in favour of `queue` (sorted leaves, all inserted before any merged
node; within each list order is insertion order, kept by the stable sort
and by appending); the first-removed node becomes the left child and the
second the right child of the new internal node, whose weight is the sum
of the two.  The first conjunct establishes the loop invariant at entry
(sorted lists, trivial bounds); the second shows each round under the
invariant pops two minima, recurses on the merged node and re-establishes
the invariant, so the description applies to every round the loop runs. -/
theorem C7_two_minimum_merge :
    (∀ l : List HuffmanNode,
      BuilderInv (l.mergeSort (fun a b => Nat.ble a.freq b.freq)) [] 0) ∧
    (∀ (q nq : List HuffmanNode) (lb : Nat), BuilderInv q nq lb →
      2 ≤ q.length + nq.length →
      ∃ first q1 n1 second q2 n2,
        popmin q nq = .ok (first, q1, n1) ∧
        popmin q1 n1 = .ok (second, q2, n2) ∧
        (∀ x ∈ q ++ nq, first.freq ≤ x.freq) ∧
        (∀ x ∈ q1 ++ n1, second.freq ≤ x.freq) ∧
        first.freq ≤ second.freq ∧
        (∀ (hq : q ≠ []) (hn : nq ≠ []),
          (q.head hq).freq ≤ (nq.head hn).freq → first = q.head hq) ∧
        buildLoop q nq = buildLoop q2
          (n2 ++ [HuffmanNode.mk none (first.freq + second.freq)
            (some first) (some second)]) ∧
        BuilderInv q2
          (n2 ++ [HuffmanNode.mk none (first.freq + second.freq)
            (some first) (some second)])
          second.freq) :=
  ⟨builderInv_init, fun _ _ _ hinv h2 => builder_round hinv h2⟩

/-- C7 witness: one round on the concrete pending lists from "abb". -/
theorem C7_two_minimum_merge_witness :
    BuilderInv [HuffmanNode.mk (some 97) 1 none none,
      HuffmanNode.mk (some 98) 2 none none] [] 0 ∧
    2 ≤ ([HuffmanNode.mk (some 97) 1 none none,
      HuffmanNode.mk (some 98) 2 none none] : List HuffmanNode).length + ([] : List HuffmanNode).length ∧
    ∃ first q1 n1 second q2 n2,
      popmin [HuffmanNode.mk (some 97) 1 none none,
        HuffmanNode.mk (some 98) 2 none none] [] = .ok (first, q1, n1) ∧
      popmin q1 n1 = .ok (second, q2, n2) ∧
      (∀ x ∈ ([HuffmanNode.mk (some 97) 1 none none,
        HuffmanNode.mk (some 98) 2 none none] : List HuffmanNode) ++ [], first.freq ≤ x.freq) ∧
      (∀ x ∈ q1 ++ n1, second.freq ≤ x.freq) ∧
      first.freq ≤ second.freq ∧
      (∀ (hq : ([HuffmanNode.mk (some 97) 1 none none,
          HuffmanNode.mk (some 98) 2 none none] : List HuffmanNode) ≠ [])
        (hn : ([] : List HuffmanNode) ≠ []),
        (([HuffmanNode.mk (some 97) 1 none none,
          HuffmanNode.mk (some 98) 2 none none] : List HuffmanNode).head hq).freq ≤
          (([] : List HuffmanNode).head hn).freq →
          first = ([HuffmanNode.mk (some 97) 1 none none,
            HuffmanNode.mk (some 98) 2 none none] : List HuffmanNode).head hq) ∧
      buildLoop [HuffmanNode.mk (some 97) 1 none none,
        HuffmanNode.mk (some 98) 2 none none] [] = buildLoop q2
        (n2 ++ [HuffmanNode.mk none (first.freq + second.freq)
          (some first) (some second)]) ∧
      BuilderInv q2
        (n2 ++ [HuffmanNode.mk none (first.freq + second.freq)
          (some first) (some second)])
        second.freq := by
  have hinv : BuilderInv [HuffmanNode.mk (some 97) 1 none none,
      HuffmanNode.mk (some 98) 2 none none] [] 0 := by
    refine ⟨?_, List.Pairwise.nil, fun x _ => Nat.zero_le _, ?_⟩
    · show List.Pairwise (fun a b => a.freq ≤ b.freq)
        [HuffmanNode.mk (some 97) 1 none none, HuffmanNode.mk (some 98) 2 none none]
      decide
    · intro y hy
      simp at hy
  exact ⟨hinv, by decide,
    C7_two_minimum_merge.2 [HuffmanNode.mk (some 97) 1 none none,
      HuffmanNode.mk (some 98) 2 none none] [] 0 hinv (by decide)⟩

/-- C8: the concrete scenario on input "abb" (`a = 97`, `b = 98`): the
frequency table holds exactly the leaves a:1 and b:2; the built tree is a
root of weight 3 with leaf(a,1) as left child and leaf(b,2) as right
child; the derived code table maps 'a' to `[0]` and 'b' to `[1]` and is
`None` everywhere else; `encode("abb") = [0,1,1]`; and
`decode([0,1,1]) = "abb"`. -/
theorem C8_concrete_abb :
    (construct_frequency_table [97, 98, 98]).filterMap id =
      [HuffmanNode.mk (some 97) 1 none none, HuffmanNode.mk (some 98) 2 none none] ∧
    construct_huffman_tree (construct_frequency_table [97, 98, 98]) =
      .ok (HuffmanNode.mk none 3 (some (HuffmanNode.mk (some 97) 1 none none))
        (some (HuffmanNode.mk (some 98) 2 none none))) ∧
    construct_dict (some (HuffmanNode.mk none 3
      (some (HuffmanNode.mk (some 97) 1 none none))
      (some (HuffmanNode.mk (some 98) 2 none none)))) none none =
      ((List.replicate 256 none).set 97 (some [false])).set 98 (some [true]) ∧
    encode [97, 98, 98] (construct_dict (some (HuffmanNode.mk none 3
      (some (HuffmanNode.mk (some 97) 1 none none))
      (some (HuffmanNode.mk (some 98) 2 none none)))) none none) =
      .ok [false, true, true] ∧
    decode [false, true, true]
      (HuffmanNode.mk none 3 (some (HuffmanNode.mk (some 97) 1 none none))
        (some (HuffmanNode.mk (some 98) 2 none none))) = .ok [97, 98, 98] := by
  have hdict : construct_dict (some (HuffmanNode.mk none 3
      (some (HuffmanNode.mk (some 97) 1 none none))
      (some (HuffmanNode.mk (some 98) 2 none none)))) none none =
      ((List.replicate 256 none).set 97 (some [false])).set 98 (some [true]) := by
    rw [construct_dict_top, codes_node, codes_leaf, codes_leaf]
    rfl
  refine ⟨rfl, ?_, hdict, ?_, rfl⟩
  · have hL : (construct_frequency_table [97, 98, 98]).filterMap id =
        [HuffmanNode.mk (some 97) 1 none none, HuffmanNode.mk (some 98) 2 none none] := rfl
    have hs : ([HuffmanNode.mk (some 97) 1 none none,
        HuffmanNode.mk (some 98) 2 none none] : List HuffmanNode).Pairwise
          (fun a b => Nat.ble a.freq b.freq) := by decide
    rw [ctree_concrete hL hs]
    have hp1 : popmin [HuffmanNode.mk (some 97) 1 none none,
        HuffmanNode.mk (some 98) 2 none none] [] =
        .ok (HuffmanNode.mk (some 97) 1 none none,
          [HuffmanNode.mk (some 98) 2 none none], []) := rfl
    have hp2 : popmin [HuffmanNode.mk (some 98) 2 none none] [] =
        .ok (HuffmanNode.mk (some 98) 2 none none, [], []) := rfl
    rw [buildLoop_step (by decide) hp1 hp2]
    rw [buildLoop_stop (by decide)]
    rfl
  · rw [hdict]
    rfl

/-- C9: for every input whose frequency table and derived code table are
built from it (that is, on which the pipeline succeeds — `hok` and
`henc`), the length of the encoded bit sequence equals the sum over the
input's distinct symbols of frequency(symbol) times the length of that
symbol's codeword in the derived table, and this total is minimal among
all prefix-free binary codes for that frequency distribution: every
assignment of codewords to symbols in which no distinct pair of the
input's symbols has one codeword a front segment of the other yields a
total at least as large. -/
theorem C9_encoded_length_optimal {s : List Symbol} {root : HuffmanNode}
    {bits : List Bool}
    (hok : construct_huffman_tree (construct_frequency_table s) = .ok root)
    (henc : encode s (construct_dict (some root) none none) = .ok bits) :
    bits.length = ((distinctSyms s).map (fun c => s.count c *
        (((construct_dict (some root) none none).getD c.val none).getD
          []).length)).sum ∧
    ∀ code : Symbol → List Bool,
      (∀ c1 ∈ distinctSyms s, ∀ c2 ∈ distinctSyms s, c1 ≠ c2 →
        ¬ isCodePre (code c1) (code c2)) →
      ((distinctSyms s).map (fun c => s.count c *
        (((construct_dict (some root) none none).getD c.val none).getD
          []).length)).sum ≤
      ((distinctSyms s).map (fun c => s.count c * (code c).length)).sum := by
  obtain ⟨a, b, ha, hb, hab⟩ := two_distinct_of_ok hok
  obtain ⟨root2, hok2, hwf, hval, hperm⟩ := tree_spec ha hb hab
  rw [hok] at hok2
  have hroot2 : root = root2 := Except.ok.inj hok2
  subst hroot2
  obtain ⟨f, l, r, rfl⟩ : ∃ f l r, root = HuffmanNode.mk none f (some l) (some r) := by
    cases hwf with
    | leaf c0 f0 => simp [HuffmanNode.value] at hval
    | node f0 hl hr => exact ⟨f0, _, _, rfl⟩
  have hnodup : (syms (HuffmanNode.mk none f (some l) (some r))).Nodup :=
    hperm.nodup (distinctSyms_nodup s)
  obtain ⟨hgood, htc⟩ := tree_tcost hok
  have hdlen : (construct_dict (some (HuffmanNode.mk none f (some l) (some r)))
      none none).length = 256 := dict_length
  have hentry : ∀ c ∈ s, ∃ w,
      (construct_dict (some (HuffmanNode.mk none f (some l) (some r))) none
        none).getD c.val none = some w ∧
      (c, w) ∈ codes (HuffmanNode.mk none f (some l) (some r)) [] := by
    intro c hc
    have hc2 : c ∈ syms (HuffmanNode.mk none f (some l) (some r)) :=
      hperm.subset (mem_distinctSyms.2 hc)
    obtain ⟨w, hw⟩ := mem_syms_iff.1 hc2
    exact ⟨w, dict_entry_some hnodup hw, hw⟩
  have hsome : ∀ c ∈ s,
      ((construct_dict (some (HuffmanNode.mk none f (some l) (some r))) none
        none).getD c.val none).isSome := by
    intro c hc
    obtain ⟨w, hw, _⟩ := hentry c hc
    rw [hw]
    rfl
  have henc2 := encode_ok _ hdlen s hsome
  rw [henc] at henc2
  have hbits : bits = s.flatMap (fun c =>
      ((construct_dict (some (HuffmanNode.mk none f (some l) (some r))) none
        none).getD c.val none).getD []) :=
    Except.ok.inj henc2
  constructor
  · rw [hbits, length_flatMap_sum]
    exact sum_over_distinct s (fun c =>
      (((construct_dict (some (HuffmanNode.mk none f (some l) (some r))) none
        none).getD c.val none).getD []).length)
  · intro code hcode
    rw [← tcost_eq_dict_sum hgood hnodup hperm, htc]
    have hnd2 : (distinctSyms s).Pairwise (fun c1 c2 =>
        ¬ isCodePre (code c1) (code c2) ∧ ¬ isCodePre (code c2) (code c1)) := by
      refine List.Pairwise.imp_of_mem ?_ (distinctSyms_nodup s)
      intro c1 c2 h1 h2 hne
      exact ⟨hcode c1 h1 c2 h2 hne, hcode c2 h2 c1 h1 hne.symm⟩
    have hpf : ((distinctSyms s).map code).Pairwise
        (fun u v => ¬ isCodePre u v ∧ ¬ isCodePre v u) :=
      hnd2.map code (fun c1 c2 h => h)
    have hlenmap : ((distinctSyms s).map code).map List.length =
        (distinctSyms s).map (fun c => (code c).length) := by
      rw [List.map_map]
      rfl
    have hkraft : KraftOK ((distinctSyms s).map (fun c => (code c).length)) := by
      apply kraftOK_of_bound le_maxL
      rw [← hlenmap]
      apply kraft_of_pairwise _ ((distinctSyms s).map code) ?_ hpf
      intro w hw
      have hwl : w.length ∈ ((distinctSyms s).map code).map List.length :=
        List.mem_map_of_mem List.length hw
      exact le_maxL _ hwl
    have hwpos : ∀ w ∈ (distinctSyms s).map (fun c => s.count c), 1 ≤ w := by
      intro w hw
      obtain ⟨c, hc, rfl⟩ := List.mem_map.1 hw
      have hmem : c ∈ s := mem_distinctSyms.1 hc
      have hcount : 0 < s.count c := List.count_pos_iff.2 hmem
      omega
    have hlens : ((distinctSyms s).map (fun c => s.count c)).length =
        ((distinctSyms s).map (fun c => (code c).length)).length := by
      simp
    have hmain := hCost_le_zipCost hlens hwpos hkraft
    rw [zipCost_map_map] at hmain
    exact hmain

/-- C9 witness: the pipeline on the concrete input "abb" satisfies both
hypotheses, and the length/optimality conclusion is instantiated there. -/
theorem C9_encoded_length_optimal_witness :
    (construct_huffman_tree (construct_frequency_table [97, 98, 98]) =
      .ok (HuffmanNode.mk none 3 (some (HuffmanNode.mk (some 97) 1 none none))
        (some (HuffmanNode.mk (some 98) 2 none none)))) ∧
    (encode [97, 98, 98] (construct_dict (some (HuffmanNode.mk none 3
      (some (HuffmanNode.mk (some 97) 1 none none))
      (some (HuffmanNode.mk (some 98) 2 none none)))) none none) =
      .ok [false, true, true]) ∧
    (([false, true, true] : List Bool).length =
      ((distinctSyms [97, 98, 98]).map (fun c => [97, 98, 98].count c *
        (((construct_dict (some (HuffmanNode.mk none 3
          (some (HuffmanNode.mk (some 97) 1 none none))
          (some (HuffmanNode.mk (some 98) 2 none none)))) none none).getD c.val
            none).getD []).length)).sum ∧
    ∀ code : Symbol → List Bool,
      (∀ c1 ∈ distinctSyms [97, 98, 98], ∀ c2 ∈ distinctSyms [97, 98, 98],
        c1 ≠ c2 → ¬ isCodePre (code c1) (code c2)) →
      ((distinctSyms [97, 98, 98]).map (fun c => [97, 98, 98].count c *
        (((construct_dict (some (HuffmanNode.mk none 3
          (some (HuffmanNode.mk (some 97) 1 none none))
          (some (HuffmanNode.mk (some 98) 2 none none)))) none none).getD c.val
            none).getD []).length)).sum ≤
      ((distinctSyms [97, 98, 98]).map
        (fun c => [97, 98, 98].count c * (code c).length)).sum) := by
  have htree : construct_huffman_tree (construct_frequency_table [97, 98, 98]) =
      .ok (HuffmanNode.mk none 3 (some (HuffmanNode.mk (some 97) 1 none none))
        (some (HuffmanNode.mk (some 98) 2 none none))) := by
    have hL : (construct_frequency_table [97, 98, 98]).filterMap id =
        [HuffmanNode.mk (some 97) 1 none none,
         HuffmanNode.mk (some 98) 2 none none] := rfl
    have hs : ([HuffmanNode.mk (some 97) 1 none none,
        HuffmanNode.mk (some 98) 2 none none] : List HuffmanNode).Pairwise
          (fun a b => Nat.ble a.freq b.freq) := by decide
    rw [ctree_concrete hL hs]
    have hp1 : popmin [HuffmanNode.mk (some 97) 1 none none,
        HuffmanNode.mk (some 98) 2 none none] [] =
        .ok (HuffmanNode.mk (some 97) 1 none none,
          [HuffmanNode.mk (some 98) 2 none none], []) := rfl
    have hp2 : popmin [HuffmanNode.mk (some 98) 2 none none] [] =
        .ok (HuffmanNode.mk (some 98) 2 none none, [], []) := rfl
    rw [buildLoop_step (by decide) hp1 hp2]
    rw [buildLoop_stop (by decide)]
    rfl
  have hdict : construct_dict (some (HuffmanNode.mk none 3
      (some (HuffmanNode.mk (some 97) 1 none none))
      (some (HuffmanNode.mk (some 98) 2 none none)))) none none =
      ((List.replicate 256 none).set 97 (some [false])).set 98 (some [true]) := by
    rw [construct_dict_top, codes_node, codes_leaf, codes_leaf]
    rfl
  have hencok : encode [97, 98, 98] (construct_dict (some (HuffmanNode.mk none 3
      (some (HuffmanNode.mk (some 97) 1 none none))
      (some (HuffmanNode.mk (some 98) 2 none none)))) none none) =
      .ok [false, true, true] := by
    rw [hdict]
    rfl
  exact ⟨htree, hencok, C9_encoded_length_optimal htree hencok⟩

/-- C10: empty inputs pass through the codec as empty outputs: for every
code table, encoding the empty string returns the empty bit sequence, and
for every tree root, decoding the empty bit sequence returns the empty
string, both without error. -/
theorem C10_empty_passthrough :
    (∀ d : List (Option (List Bool)), encode [] d = .ok []) ∧
    (∀ root : HuffmanNode, decode [] root = .ok []) :=
  ⟨fun _ => rfl, fun _ => rfl⟩


end Huff
